import Mathlib

/-!
Verification of the gridwise WebGPU primitive library.

This file shallowly embeds the CPU-side JavaScript of the repository
(`util.mjs`, `histogramStrategies.mjs`, `baseHistogram.mjs`, the
`scan_pane_example.mjs` driver) together with an operational model of the
single-pass chained-scan ("decoupled lookback, decoupled fallback") engine
described by the specification, and proves the specification's testable
properties about them.

Machine integers are modelled as `Nat` with explicit `% 2 ^ 32` where the
source relies on 32-bit wraparound; JavaScript `number` arithmetic that the
relevant code uses only through `+ - * /` and `Math.floor` is modelled over
`ℚ`.
-/

namespace Gridwise

/-! ## util.mjs -/

/-- `divRoundUp(x, y)` from util.mjs: `Math.ceil(x / y)`, for natural
arguments (the library always calls it on nonnegative integers).  For
`0 < y`, `(x + y - 1) / y` is exactly the ceiling of the rational
quotient. -/
def divRoundUp (x y : Nat) : Nat := (x + y - 1) / y

/-- The loop of `bitreverse` from util.mjs as the reference its comment
cites (the Stanford bit-hacks "reverse bits the obvious way", which keeps
`v` unsigned) intends it, i.e. with the unsigned shift:
`for (v >>>= 1; v; v >>>= 1) { r <<= 1; r |= v & 1; s--; }`.
Shifts and bitwise ops act on the 32-bit pattern, i.e. modulo `2 ^ 32`;
`r <<= 1` leaves bit 0 clear, so `r |= v & 1` coincides with addition.
The source as written instead uses the signed shift `v >>= 1`; its literal
embedding is `bitrevLoopJS` below, which agrees with this total recursion
exactly when the written loop terminates. -/
def bitrevLoop : Nat → Nat → Nat → Nat × Nat
  | 0, r, s => (r, s)
  | v + 1, r, s =>
      bitrevLoop ((v + 1) / 2) ((2 * r + (v + 1) % 2) % 2 ^ 32) (s - 1)

/-- `bitreverse(i)` as util.mjs documents it (unsigned shifts, per the
bit-hacks reference its comment cites): reverse the 32 bits of `i`
(`i >>> 0` truncates the argument to an unsigned 32-bit value first).
The code as written uses the signed `v >>= 1` and diverges whenever
bit 31 of `i` is set — see `bitreverseJS` below, which embeds the code
literally and computes this function whenever it terminates. -/
def bitreverse (i : Nat) : Nat :=
  let v := i % 2 ^ 32
  let p := bitrevLoop (v / 2) v 31
  (p.1 * 2 ^ p.2) % 2 ^ 32

/-- Reference bit reversal of the low `n` bits of a natural number,
defined by structural recursion from the low end. -/
def revN : Nat → Nat → Nat
  | 0, _ => 0
  | n + 1, i => i % 2 * 2 ^ n + revN n (i / 2)

theorem revN_lt (n i : Nat) : revN n i < 2 ^ n := by
  induction n generalizing i with
  | zero => simp [revN]
  | succ n ih =>
    have h2 : i % 2 ≤ 1 := Nat.le_of_lt_succ (Nat.mod_lt _ (by norm_num))
    have := ih (i / 2)
    calc revN (n + 1) i = i % 2 * 2 ^ n + revN n (i / 2) := rfl
      _ ≤ 1 * 2 ^ n + revN n (i / 2) :=
          Nat.add_le_add_right (Nat.mul_le_mul_right _ h2) _
      _ < 1 * 2 ^ n + 2 ^ n := Nat.add_lt_add_left this _
      _ = 2 ^ (n + 1) := by ring

theorem revN_zero (n : Nat) : revN n 0 = 0 := by
  induction n with
  | zero => rfl
  | succ n ih => simp [revN, ih]

/-- Prepending a high bit `b` to an `n`-bit value: it lands in the low
bit of the reversal. -/
theorem revN_high_bit (n : Nat) (b x : Nat) (hb : b ≤ 1) (hx : x < 2 ^ n) :
    revN (n + 1) (b * 2 ^ n + x) = 2 * revN n x + b := by
  induction n generalizing x with
  | zero =>
    interval_cases x
    interval_cases b <;> simp [revN]
  | succ n ih =>
    have hmod : (b * 2 ^ (n + 1) + x) % 2 = x % 2 := by
      have : b * 2 ^ (n + 1) = b * 2 ^ n * 2 := by ring
      omega
    have hdiv : (b * 2 ^ (n + 1) + x) / 2 = b * 2 ^ n + x / 2 := by
      have : b * 2 ^ (n + 1) = b * 2 ^ n * 2 := by ring
      omega
    have hx2 : x / 2 < 2 ^ n := by
      have : 2 ^ (n + 1) = 2 ^ n * 2 := by ring
      omega
    calc revN (n + 2) (b * 2 ^ (n + 1) + x)
        = (b * 2 ^ (n + 1) + x) % 2 * 2 ^ (n + 1) +
            revN (n + 1) ((b * 2 ^ (n + 1) + x) / 2) := rfl
      _ = x % 2 * 2 ^ (n + 1) + revN (n + 1) (b * 2 ^ n + x / 2) := by
          rw [hmod, hdiv]
      _ = x % 2 * 2 ^ (n + 1) + (2 * revN n (x / 2) + b) := by
          rw [ih (x / 2) hx2]
      _ = 2 * (x % 2 * 2 ^ n + revN n (x / 2)) + b := by ring
      _ = 2 * revN (n + 1) x + b := rfl

/-- `revN n` is an involution on `[0, 2 ^ n)`. -/
theorem revN_involution (n : Nat) : ∀ i, i < 2 ^ n → revN n (revN n i) = i := by
  induction n with
  | zero => intro i hi; interval_cases i; rfl
  | succ n ih =>
    intro i hi
    have hb : i % 2 ≤ 1 := Nat.le_of_lt_succ (Nat.mod_lt _ (by norm_num))
    have hx : revN n (i / 2) < 2 ^ n := revN_lt n (i / 2)
    have hi2 : i / 2 < 2 ^ n := by
      have : 2 ^ (n + 1) = 2 ^ n * 2 := by ring
      omega
    calc revN (n + 1) (revN (n + 1) i)
        = revN (n + 1) (i % 2 * 2 ^ n + revN n (i / 2)) := rfl
      _ = 2 * revN n (revN n (i / 2)) + i % 2 := revN_high_bit n _ _ hb hx
      _ = 2 * (i / 2) + i % 2 := by rw [ih (i / 2) hi2]
      _ = i := by omega

/-- Padding an `m`-bit value with `k` high zero bits shifts its reversal
up by `k`. -/
theorem revN_pad (m k : Nat) : ∀ v, v < 2 ^ m →
    revN (m + k) v = revN m v * 2 ^ k := by
  induction m with
  | zero =>
    intro v hv
    interval_cases v
    simp [revN, revN_zero]
  | succ m ih =>
    intro v hv
    have hv2 : v / 2 < 2 ^ m := by
      have : 2 ^ (m + 1) = 2 ^ m * 2 := by ring
      omega
    have hidx : m + 1 + k = (m + k) + 1 := by ring
    rw [hidx]
    calc revN ((m + k) + 1) v
        = v % 2 * 2 ^ (m + k) + revN (m + k) (v / 2) := rfl
      _ = v % 2 * 2 ^ (m + k) + revN m (v / 2) * 2 ^ k := by rw [ih _ hv2]
      _ = (v % 2 * 2 ^ m + revN m (v / 2)) * 2 ^ k := by ring
      _ = revN (m + 1) v * 2 ^ k := rfl

/-- The size of a nonzero natural is one more than the size of its half. -/
theorem size_succ_div_two (w : Nat) :
    Nat.size (w + 1) = Nat.size ((w + 1) / 2) + 1 := by
  have hiff : ∀ k, Nat.size (w + 1) ≤ k + 1 ↔ Nat.size ((w + 1) / 2) ≤ k := by
    intro k
    rw [Nat.size_le, Nat.size_le]
    have hp : 2 ^ (k + 1) = 2 * 2 ^ k := by ring
    omega
  have hpos : 0 < Nat.size (w + 1) := Nat.size_pos.mpr (Nat.succ_pos w)
  have h1 : Nat.size (w + 1) ≤ Nat.size ((w + 1) / 2) + 1 :=
    (hiff _).mpr le_rfl
  have h2 : Nat.size ((w + 1) / 2) ≤ Nat.size (w + 1) - 1 := by
    have := (hiff (Nat.size (w + 1) - 1)).mp (by omega)
    exact this
  omega

/-- The `bitreverse` loop computes the bit reversal of `v` (its
`Nat.size v` many significant bits) appended below the running value `r`
(modulo `2 ^ 32`), and decrements `s` by the number of iterations. -/
theorem bitrevLoop_spec (v : Nat) : ∀ r s, r < 2 ^ 32 →
    bitrevLoop v r s = ((r * 2 ^ Nat.size v + revN (Nat.size v) v) % 2 ^ 32,
      s - Nat.size v) := by
  induction v using Nat.strong_induction_on with
  | _ v ih =>
    intro r s hr
    match v with
    | 0 =>
      have h0 : bitrevLoop 0 r s = (r, s) := by rw [bitrevLoop]
      rw [h0]
      simp only [Nat.size_zero, revN, pow_zero, Nat.mul_one, Nat.add_zero, Nat.sub_zero]
      refine Prod.ext ?_ rfl
      show r = r % 2 ^ 32
      omega
    | w + 1 =>
      have hlt : (w + 1) / 2 < w + 1 := Nat.div_lt_self (Nat.succ_pos w) one_lt_two
      have hsize := size_succ_div_two w
      have hrec := ih ((w + 1) / 2) hlt ((2 * r + (w + 1) % 2) % 2 ^ 32) (s - 1)
        (Nat.mod_lt _ (by norm_num))
      have hstep : bitrevLoop (w + 1) r s =
          bitrevLoop ((w + 1) / 2) ((2 * r + (w + 1) % 2) % 2 ^ 32) (s - 1) := by
        rw [bitrevLoop]
      rw [hstep, hrec, hsize]
      have hspos : 0 < Nat.size (w + 1) := Nat.size_pos.mpr (Nat.succ_pos w)
      refine Prod.ext ?_ ?_
      · show ((2 * r + (w + 1) % 2) % 2 ^ 32 * 2 ^ Nat.size ((w + 1) / 2) +
            revN (Nat.size ((w + 1) / 2)) ((w + 1) / 2)) % 2 ^ 32 =
          (r * 2 ^ (Nat.size ((w + 1) / 2) + 1) +
            revN (Nat.size ((w + 1) / 2) + 1) (w + 1)) % 2 ^ 32
        set m := Nat.size ((w + 1) / 2) with hm
        have h1 : (2 * r + (w + 1) % 2) % 2 ^ 32 * 2 ^ m % 2 ^ 32 =
            (2 * r + (w + 1) % 2) * 2 ^ m % 2 ^ 32 := Nat.mod_mul_mod
        calc ((2 * r + (w + 1) % 2) % 2 ^ 32 * 2 ^ m + revN m ((w + 1) / 2)) % 2 ^ 32
            = ((2 * r + (w + 1) % 2) % 2 ^ 32 * 2 ^ m % 2 ^ 32 +
                revN m ((w + 1) / 2)) % 2 ^ 32 := by
              rw [Nat.mod_add_mod]
          _ = ((2 * r + (w + 1) % 2) * 2 ^ m % 2 ^ 32 +
                revN m ((w + 1) / 2)) % 2 ^ 32 := by rw [h1]
          _ = ((2 * r + (w + 1) % 2) * 2 ^ m + revN m ((w + 1) / 2)) % 2 ^ 32 := by
              rw [Nat.mod_add_mod]
          _ = (r * 2 ^ (m + 1) + ((w + 1) % 2 * 2 ^ m + revN m ((w + 1) / 2))) % 2 ^ 32 := by
              ring_nf
          _ = (r * 2 ^ (m + 1) + revN (m + 1) (w + 1)) % 2 ^ 32 := rfl
      · show s - 1 - Nat.size ((w + 1) / 2) = s - (Nat.size ((w + 1) / 2) + 1)
        omega

/-- Bit `j` of `revN n i` is bit `n - 1 - j` of `i`, for `j < n`. -/
theorem revN_testBit : ∀ n i j, j < n →
    Nat.testBit (revN n i) j = Nat.testBit i (n - 1 - j) := by
  intro n
  induction n with
  | zero => intro i j hj; omega
  | succ n ih =>
    intro i j hj
    have hx : revN n (i / 2) < 2 ^ n := revN_lt n (i / 2)
    have hrw : revN (n + 1) i = 2 ^ n * (i % 2) + revN n (i / 2) := by
      show i % 2 * 2 ^ n + revN n (i / 2) = _
      ring
    rw [hrw, Nat.testBit_mul_pow_two_add _ hx j]
    by_cases hjn : j < n
    · rw [if_pos hjn, ih (i / 2) j hjn, Nat.testBit_div_two]
      congr 1
      omega
    · have hjeq : j = n := by omega
      rw [hjeq, if_neg (lt_irrefl n), Nat.sub_self]
      have h0 : n + 1 - 1 - n = 0 := by omega
      rw [h0]
      simp only [Nat.testBit_zero]
      have h2 : i % 2 % 2 = i % 2 := by omega
      rw [h2]

/-- `bitreverse` computes the reference 32-bit reversal on 32-bit inputs. -/
theorem bitreverse_eq_revN (i : Nat) (hi : i < 2 ^ 32) :
    bitreverse i = revN 32 i := by
  have himod : i % 2 ^ 32 = i := Nat.mod_eq_of_lt hi
  have hhalf : i / 2 < 2 ^ 31 := by
    have h2 : (2:Nat) ^ 32 = 2 * 2 ^ 31 := by norm_num
    omega
  have hm : Nat.size (i / 2) ≤ 31 := Nat.size_le.mpr hhalf
  set m := Nat.size (i / 2) with hmdef
  have hself : i / 2 < 2 ^ m := Nat.lt_size_self _
  have hpad := revN_pad m (31 - m) (i / 2) hself
  have h31 : m + (31 - m) = 31 := by omega
  rw [h31] at hpad
  have hunfold : bitreverse i =
      ((bitrevLoop (i / 2) i 31).1 * 2 ^ (bitrevLoop (i / 2) i 31).2) % 2 ^ 32 := by
    simp only [bitreverse, himod]
  rw [hunfold, bitrevLoop_spec (i / 2) i 31 hi]
  have hA : revN 31 (i / 2) < 2 ^ 31 := revN_lt _ _
  have hrw32 : revN 32 i = i % 2 * 2 ^ 31 + revN 31 (i / 2) := rfl
  calc ((i * 2 ^ m + revN m (i / 2)) % 2 ^ 32 * 2 ^ (31 - m)) % 2 ^ 32
      = ((i * 2 ^ m + revN m (i / 2)) * 2 ^ (31 - m)) % 2 ^ 32 := Nat.mod_mul_mod
    _ = (i * 2 ^ 31 + revN m (i / 2) * 2 ^ (31 - m)) % 2 ^ 32 := by
        rw [Nat.add_mul, Nat.mul_assoc, ← pow_add, h31]
    _ = (i * 2 ^ 31 + revN 31 (i / 2)) % 2 ^ 32 := by rw [hpad]
    _ = revN 32 i := by
        rw [hrw32]
        have e1 : (2:Nat) ^ 31 = 2147483648 := by norm_num
        have e2 : (2:Nat) ^ 32 = 4294967296 := by norm_num
        rw [e1] at *
        rw [e2] at *
        omega

/-! ### The `bitreverse` loop as actually written: signed shift

JavaScript `>>` is the signed shift: it reinterprets the 32-bit pattern as
a two's-complement value and duplicates the sign bit while shifting, so on
the unsigned pattern `p < 2 ^ 32` one step of `v >>= 1` is `p / 2` plus
`2 ^ 31` when bit 31 of `p` is set.  The loop test `v` is truthy exactly
when the pattern is nonzero, and `v & 1` is `p % 2`.  The written loop is
therefore partial — once bit 31 is set, `v` converges to the all-ones
pattern (two's-complement `-1`) and never becomes 0 — so it is embedded
fuel-indexed: `none` means the loop has not exited within the given number
of iterations, hence `none` for every fuel means it never exits. -/

/-- One signed shift `v >> 1` on the 32-bit pattern `p`: halve, and
re-insert the sign bit at the top. -/
def sar32 (p : Nat) : Nat := p / 2 + if 2 ^ 31 ≤ p then 2 ^ 31 else 0

/-- The loop of `bitreverse` exactly as written in util.mjs,
`for (v >>= 1; v; v >>= 1) { r <<= 1; r |= v & 1; s--; }`, entered after
the initial `v >>= 1`, indexed by fuel: `some (r, s)` if the loop exits
within `fuel` more tests, `none` otherwise. -/
def bitrevLoopJS : Nat → Nat → Nat → Nat → Option (Nat × Nat)
  | 0, _, _, _ => none
  | fuel + 1, v, r, s =>
      if v = 0 then some (r, s)
      else bitrevLoopJS fuel (sar32 v) ((2 * r + v % 2) % 2 ^ 32) (s - 1)

/-- `bitreverse(i)` from util.mjs exactly as written (signed `v >>= 1`),
observed for at most `fuel` loop tests: `some` of the returned value
(`r <<= s; return r >>> 0`) if the function returns within that budget,
`none` otherwise. -/
def bitreverseJS (fuel i : Nat) : Option Nat :=
  let v := i % 2 ^ 32
  match bitrevLoopJS fuel (sar32 v) v 31 with
  | none => none
  | some p => some ((p.1 * 2 ^ p.2) % 2 ^ 32)

theorem bitreverseJS_eq (fuel i : Nat) :
    bitreverseJS fuel i =
      (bitrevLoopJS fuel (sar32 (i % 2 ^ 32)) (i % 2 ^ 32) 31).map
        (fun p => (p.1 * 2 ^ p.2) % 2 ^ 32) := by
  simp only [bitreverseJS]
  cases bitrevLoopJS fuel (sar32 (i % 2 ^ 32)) (i % 2 ^ 32) 31 <;> rfl

theorem sar32_high {p : Nat} (h : 2 ^ 31 ≤ p) : 2 ^ 31 ≤ sar32 p := by
  unfold sar32
  rw [if_pos h]
  omega

theorem sar32_low {p : Nat} (h : p < 2 ^ 31) : sar32 p = p / 2 := by
  unfold sar32
  rw [if_neg (by omega)]
  omega

/-- Once the sign bit of `v` is set, the signed shift keeps it set, so the
written loop never exits, whatever the fuel. -/
theorem bitrevLoopJS_high (fuel : Nat) : ∀ v r s, 2 ^ 31 ≤ v →
    bitrevLoopJS fuel v r s = none := by
  induction fuel with
  | zero => intro v r s _; rfl
  | succ fuel ih =>
    intro v r s h
    rw [bitrevLoopJS, if_neg (show ¬v = 0 by omega)]
    exact ih (sar32 v) _ _ (sar32_high h)

/-- Below the sign bit the signed shift is the unsigned one, so whenever
the written loop exits it returns what the intended loop computes. -/
theorem bitrevLoopJS_low_eq (fuel : Nat) : ∀ v r s res, v < 2 ^ 31 →
    bitrevLoopJS fuel v r s = some res → res = bitrevLoop v r s := by
  induction fuel with
  | zero =>
    intro v r s res _ h
    simp [bitrevLoopJS] at h
  | succ fuel ih =>
    intro v r s res hv h
    rw [bitrevLoopJS] at h
    by_cases h0 : v = 0
    · rw [if_pos h0] at h
      injection h with h'
      subst h0
      rw [bitrevLoop]
      exact h'.symm
    · rw [if_neg h0, sar32_low hv] at h
      rw [ih (v / 2) ((2 * r + v % 2) % 2 ^ 32) (s - 1) res (by omega) h]
      obtain ⟨w, rfl⟩ : ∃ w, v = w + 1 := ⟨v - 1, by omega⟩
      have hstep : bitrevLoop (w + 1) r s =
          bitrevLoop ((w + 1) / 2) ((2 * r + (w + 1) % 2) % 2 ^ 32) (s - 1) := by
        rw [bitrevLoop]
      rw [hstep]

/-- Below the sign bit the written loop does exit, given fuel beyond the
bit length of `v`. -/
theorem bitrevLoopJS_low_exits (fuel : Nat) : ∀ v r s, v < 2 ^ 31 →
    Nat.size v < fuel → bitrevLoopJS fuel v r s = some (bitrevLoop v r s) := by
  induction fuel with
  | zero => intro v r s _ hf; omega
  | succ fuel ih =>
    intro v r s hv hf
    rw [bitrevLoopJS]
    by_cases h0 : v = 0
    · subst h0
      rw [if_pos rfl, bitrevLoop]
    · rw [if_neg h0, sar32_low hv]
      obtain ⟨w, rfl⟩ : ∃ w, v = w + 1 := ⟨v - 1, by omega⟩
      have hsize := size_succ_div_two w
      rw [ih ((w + 1) / 2) ((2 * r + (w + 1) % 2) % 2 ^ 32) (s - 1) (by omega)
        (by omega)]
      have hstep : bitrevLoop (w + 1) r s =
          bitrevLoop ((w + 1) / 2) ((2 * r + (w + 1) % 2) % 2 ^ 32) (s - 1) := by
        rw [bitrevLoop]
      rw [hstep]

/-- The written `bitreverse` never returns on any 32-bit input with bit 31
set. -/
theorem bitreverseJS_high (i : Nat) (h1 : 2 ^ 31 ≤ i) (h2 : i < 2 ^ 32)
    (fuel : Nat) : bitreverseJS fuel i = none := by
  rw [bitreverseJS_eq, Nat.mod_eq_of_lt h2,
    bitrevLoopJS_high fuel (sar32 i) i 31 (sar32_high h1), Option.map_none']

/-- On inputs below `2 ^ 31` the written `bitreverse` returns (32 tests
suffice) and computes the intended unsigned reversal. -/
theorem bitreverseJS_low (i : Nat) (h : i < 2 ^ 31) :
    bitreverseJS 32 i = some (bitreverse i) := by
  have h32 : i < 2 ^ 32 := by omega
  have hmod : i % 2 ^ 32 = i := Nat.mod_eq_of_lt h32
  have hsz : Nat.size (i / 2) < 32 := by
    have h30 : i / 2 < 2 ^ 30 := by omega
    have := Nat.size_le.mpr h30
    omega
  rw [bitreverseJS_eq, hmod, sar32_low h,
    bitrevLoopJS_low_exits 32 (i / 2) i 31 (by omega) hsz, Option.map_some']
  have hrev : bitreverse i =
      ((bitrevLoop (i / 2) i 31).1 * 2 ^ (bitrevLoop (i / 2) i 31).2) % 2 ^ 32 := by
    simp only [bitreverse, hmod]
  rw [hrev]

/-- C10: the claimed involution fails on `bitreverse` as written, because
the loop `for (v >>= 1; v; v >>= 1)` uses the JavaScript signed shift: the
function never returns on any 32-bit input with bit 31 set, so for every
odd 32-bit input `i` the inner call, when it returns, yields a value with
bit 31 set (bit 0 of `i` reversed) and the outer call of
`bitreverse (bitreverse i)` never returns — concretely the code returns
`2 ^ 31` on input 1 and then hangs on `2 ^ 31`.  On inputs below `2 ^ 31`
the code does return and computes the intended unsigned reversal
`bitreverse` (the bit-hacks reference its comment cites), which is exactly
the involution the claim describes: bit `k` of `bitreverse i` is bit
`31 - k` of `i`, and `bitreverse (bitreverse i) = i` on `[0, 2 ^ 32)`. -/
theorem C10_bitreverse_involution_bug :
    (∀ i, 2 ^ 31 ≤ i → i < 2 ^ 32 → ∀ fuel, bitreverseJS fuel i = none) ∧
    (∀ i out fuel fuel', i % 2 = 1 → i < 2 ^ 32 →
      bitreverseJS fuel i = some out → bitreverseJS fuel' out = none) ∧
    bitreverseJS 32 1 = some (2 ^ 31) ∧
    (∀ fuel, bitreverseJS fuel (2 ^ 31) = none) ∧
    (∀ i, i < 2 ^ 31 → bitreverseJS 32 i = some (bitreverse i)) ∧
    (∀ i, i < 2 ^ 32 → bitreverse (bitreverse i) = i ∧
      ∀ k, k < 32 → Nat.testBit (bitreverse i) k = Nat.testBit i (31 - k)) := by
  refine ⟨bitreverseJS_high, ?_, by decide,
    fun fuel => bitreverseJS_high (2 ^ 31) le_rfl (by norm_num) fuel,
    bitreverseJS_low, ?_⟩
  · intro i out fuel fuel' hodd hi32 hsome
    by_cases hhi : 2 ^ 31 ≤ i
    · rw [bitreverseJS_high i hhi hi32 fuel] at hsome
      exact absurd hsome (by simp)
    · have hlow : i < 2 ^ 31 := by omega
      have hmod : i % 2 ^ 32 = i := Nat.mod_eq_of_lt hi32
      have hout : out = bitreverse i := by
        rw [bitreverseJS_eq, hmod, sar32_low hlow] at hsome
        cases hloop : bitrevLoopJS fuel (i / 2) i 31 with
        | none =>
          rw [hloop, Option.map_none'] at hsome
          exact absurd hsome (by simp)
        | some p =>
          rw [hloop, Option.map_some'] at hsome
          injection hsome with h'
          rw [← h', bitrevLoopJS_low_eq fuel (i / 2) i 31 p (by omega) hloop]
          show ((bitrevLoop (i / 2) i 31).1 * 2 ^ (bitrevLoop (i / 2) i 31).2)
              % 2 ^ 32 = bitreverse i
          simp only [bitreverse, hmod]
      have hrevN := bitreverse_eq_revN i hi32
      have hout32 : out < 2 ^ 32 := by
        rw [hout, hrevN]
        exact revN_lt 32 i
      have houthi : 2 ^ 31 ≤ out := by
        rw [hout, hrevN]
        have hsplit : revN 32 i = i % 2 * 2 ^ 31 + revN 31 (i / 2) := rfl
        rw [hsplit, hodd]
        omega
      exact bitreverseJS_high out houthi hout32 fuel'
  · intro i hi
    have h1 := bitreverse_eq_revN i hi
    have h2 := bitreverse_eq_revN (revN 32 i) (revN_lt 32 i)
    refine ⟨?_, ?_⟩
    · rw [h1, h2, revN_involution 32 i hi]
    · intro k hk
      rw [h1, revN_testBit 32 i k hk]

/-- Witness for C10 at concrete inputs: `bitreverse(3)` returns
`0xC0000000`, on which the outer call never returns; a single call already
hangs on `2 ^ 31`; on the small input 5 the written code returns the
intended reversal, and the intended reversal is an involution at 3. -/
theorem C10_bitreverse_involution_bug_witness :
    (3 % 2 = 1 ∧ 3 < 2 ^ 32 ∧ bitreverseJS 32 3 = some 3221225472 ∧
      bitreverseJS 64 3221225472 = none) ∧
    (2 ^ 31 ≤ 2147483648 ∧ 2147483648 < 2 ^ 32 ∧
      bitreverseJS 64 2147483648 = none) ∧
    (5 < 2 ^ 31 ∧ bitreverseJS 32 5 = some (bitreverse 5)) ∧
    (3 < 2 ^ 32 ∧ bitreverse (bitreverse 3) = 3) :=
  ⟨⟨by norm_num, by norm_num, by decide,
      C10_bitreverse_involution_bug.2.1 3 3221225472 32 64 (by norm_num)
        (by norm_num) (by decide)⟩,
    ⟨by norm_num, by norm_num,
      C10_bitreverse_involution_bug.1 2147483648 (by norm_num) (by norm_num) 64⟩,
    ⟨by norm_num, C10_bitreverse_involution_bug.2.2.2.2.1 5 (by norm_num)⟩,
    ⟨by norm_num, (C10_bitreverse_involution_bug.2.2.2.2.2 3 (by norm_num)).1⟩⟩

/-! ## histogramStrategies.mjs / baseHistogram.mjs: even-bin CPU paths

JavaScript `number` arithmetic in these two functions uses only
`- * /` and `Math.floor`, modelled over `ℚ`; both functions compute the
same `normalized` expression, so their relationship is independent of the
numeric carrier. -/

/-- The shared raw even-bin computation
`Math.floor((value - min) * (numBins / (max - min)))` that both CPU
paths perform before their differing range handling. -/
def evenBinRaw (inputValue minValue maxValue : ℚ) (numBins : ℤ) : ℤ :=
  Int.floor ((inputValue - minValue) * ((numBins : ℚ) / (maxValue - minValue)))

/-- `arithmeticBinCPU(inputValue, min, max, numBins)` from
histogramStrategies.mjs: computes the raw bin and clamps it into
`[0, numBins - 1]` (`bin = Math.max(0, Math.min(bin, numBins - 1))`). -/
def arithmeticBinCPU (inputValue minValue maxValue : ℚ) (numBins : ℤ) : ℤ :=
  let scale := (numBins : ℚ) / (maxValue - minValue)
  let normalized := (inputValue - minValue) * scale
  let bin := Int.floor normalized
  Max.max 0 (Min.min bin (numBins - 1))

/-- The even-bin path of `BaseHistogram.getBinIndex(value)` from
baseHistogram.mjs: computes the same raw bin, but returns `-1` when it
falls outside `[0, numBins)` (`if (bin < 0 || bin >= this.numBins)
return -1;`). -/
def getBinIndexEven (value minValue maxValue : ℚ) (numBins : ℤ) : ℤ :=
  let scale := (numBins : ℚ) / (maxValue - minValue)
  let normalized := (value - minValue) * scale
  let bin := Int.floor normalized
  if bin < 0 ∨ numBins ≤ bin then -1 else bin

/-- C9 counterexample: the two CPU-side even-bin reference paths do not
agree on out-of-range values.  At `value = -1`, `min = 0`, `max = 1`,
`numBins = 1` (finite value, `min < max`, `numBins ≥ 1`),
`arithmeticBinCPU` clamps into bin `0` while `getBinIndex` reports `-1`,
so they do not classify an out-of-range value identically. -/
theorem C9_counterexample :
    arithmeticBinCPU (-1) 0 1 1 = 0 ∧ getBinIndexEven (-1) 0 1 1 = -1 ∧
    arithmeticBinCPU (-1) 0 1 1 ≠ getBinIndexEven (-1) 0 1 1 := by
  refine ⟨?_, ?_, ?_⟩ <;> norm_num [arithmeticBinCPU, getBinIndexEven]

/-- C9 (amended): both even-bin CPU paths compute the same raw bin
index, and agree exactly on the values whose raw bin lies in
`[0, numBins)`; for a value below the range `arithmeticBinCPU` clamps to
bin `0` and for one at or above the range it clamps to bin
`numBins - 1`, while `getBinIndexEven` returns `-1` in both cases. -/
theorem C9_even_bin_paths (value minValue maxValue : ℚ) (numBins : ℤ)
    (hlt : minValue < maxValue) (hn : 1 ≤ numBins) :
    (0 ≤ evenBinRaw value minValue maxValue numBins →
      evenBinRaw value minValue maxValue numBins < numBins →
      arithmeticBinCPU value minValue maxValue numBins =
        evenBinRaw value minValue maxValue numBins ∧
      getBinIndexEven value minValue maxValue numBins =
        evenBinRaw value minValue maxValue numBins) ∧
    (evenBinRaw value minValue maxValue numBins < 0 →
      arithmeticBinCPU value minValue maxValue numBins = 0 ∧
      getBinIndexEven value minValue maxValue numBins = -1) ∧
    (numBins ≤ evenBinRaw value minValue maxValue numBins →
      arithmeticBinCPU value minValue maxValue numBins = numBins - 1 ∧
      getBinIndexEven value minValue maxValue numBins = -1) := by
  have hA : arithmeticBinCPU value minValue maxValue numBins =
      Max.max 0 (Min.min (evenBinRaw value minValue maxValue numBins) (numBins - 1)) := rfl
  have hG : getBinIndexEven value minValue maxValue numBins =
      if evenBinRaw value minValue maxValue numBins < 0 ∨
          numBins ≤ evenBinRaw value minValue maxValue numBins then -1
      else evenBinRaw value minValue maxValue numBins := rfl
  set b := evenBinRaw value minValue maxValue numBins with hb
  rw [hA, hG]
  refine ⟨fun h1 h2 => ⟨by omega, ?_⟩, fun h1 => ⟨by omega, ?_⟩, fun h1 => ⟨by omega, ?_⟩⟩
  · rw [if_neg (by omega)]
  · rw [if_pos (by omega)]
  · rw [if_pos (by omega)]

/-- Witness for C9's amended theorem: `value = 1/2`, `min = 0`,
`max = 1`, `numBins = 2` gives raw bin `1`, and both paths return `1`. -/
theorem C9_even_bin_paths_witness :
    (0 : ℚ) < 1 ∧ (1 : ℤ) ≤ 2 ∧
    (0 ≤ evenBinRaw (1/2) 0 1 2 ∧ evenBinRaw (1/2) 0 1 2 < 2) ∧
    arithmeticBinCPU (1/2) 0 1 2 = evenBinRaw (1/2) 0 1 2 ∧
    getBinIndexEven (1/2) 0 1 2 = evenBinRaw (1/2) 0 1 2 := by
  have hraw : evenBinRaw (1/2) 0 1 2 = 1 := by norm_num [evenBinRaw]
  refine ⟨by norm_num, by norm_num, ⟨by rw [hraw]; norm_num, by rw [hraw]; norm_num⟩, ?_⟩
  exact (C9_even_bin_paths (1/2) 0 1 2 (by norm_num) (by norm_num)).1
    (by rw [hraw]; norm_num) (by rw [hraw]; norm_num)

/-! ## scan_pane_example.mjs: input-length alignment handling -/

/-- The input-length adjustment in the `button.on("click")` handler of
scan_pane_example.mjs: `if (params.inputLength % 4 !== 0)
{ params.inputLength = Math.floor(params.inputLength / 4) * 4; }`.
A misaligned length is silently rounded down to a multiple of 4. -/
def clickAdjustInputLength (inputLength : Nat) : Nat :=
  if inputLength % 4 ≠ 0 then inputLength / 4 * 4 else inputLength

/-- Whether `buildAndRun()` of scan_pane_example.mjs emits its
misalignment diagnostic: `if (params.inputLength % 4 !== 0)
{ console.warn("Input length ... must be divisible by 4 (output is
likely to be incorrect)"); }`. -/
def buildAndRunWarns (inputLength : Nat) : Bool :=
  decide (inputLength % 4 ≠ 0)

/-- Whether `buildAndRun()` of scan_pane_example.mjs reaches
`primitive.execute(...)`: it has no rejection path — after the optional
warning it unconditionally generates the input, constructs the
primitive, and issues the dispatch. -/
def buildAndRunDispatches (inputLength : Nat) : Bool := true

/-- C8 counterexample: at `inputLength = 5` (not a multiple of the vec4
work-unit width 4), setup does not reject and does not report an error
to the caller: the click handler silently coerces the length to 4, and
`buildAndRun` on a misaligned length merely warns on the console and
still issues the dispatch. -/
theorem C8_counterexample :
    5 % 4 ≠ 0 ∧ clickAdjustInputLength 5 = 4 ∧ clickAdjustInputLength 5 ≠ 5 ∧
    buildAndRunWarns 5 = true ∧ buildAndRunDispatches 5 = true := by
  decide

/-- C8 (amended): an `inputLength` that is not a whole multiple of the
vec4 width 4 is not rejected at setup: the UI click handler silently
rounds it down to a multiple of 4 before running, and `buildAndRun`
itself merely logs a console warning for a misaligned length and issues
the dispatch anyway. -/
theorem C8_alignment_handling (inputLength : Nat) :
    clickAdjustInputLength inputLength % 4 = 0 ∧
    (inputLength % 4 ≠ 0 →
      clickAdjustInputLength inputLength = inputLength / 4 * 4 ∧
      buildAndRunWarns inputLength = true ∧
      buildAndRunDispatches inputLength = true) ∧
    (inputLength % 4 = 0 →
      clickAdjustInputLength inputLength = inputLength ∧
      buildAndRunWarns inputLength = false ∧
      buildAndRunDispatches inputLength = true) := by
  unfold clickAdjustInputLength buildAndRunWarns buildAndRunDispatches
  refine ⟨?_, fun h => ?_, fun h => ?_⟩
  · split_ifs with h <;> omega
  · rw [if_pos h]
    exact ⟨rfl, by simpa using h, rfl⟩
  · rw [if_neg (by omega)]
    exact ⟨rfl, by simpa using h, rfl⟩

/-- Witness for C8's amended theorem at the concrete misaligned length 5. -/
theorem C8_alignment_handling_witness :
    5 % 4 ≠ 0 ∧ (clickAdjustInputLength 5 = 5 / 4 * 4 ∧
      buildAndRunWarns 5 = true ∧ buildAndRunDispatches 5 = true) :=
  ⟨by decide, (C8_alignment_handling 5).2.1 (by decide)⟩

/-! ## The single-pass chained-scan (DLDF) engine

Modelled from the spec: the engine itself (`scandldf.mjs` and its WGSL
kernels) is not among the provided sources — only its documentation,
callers and utilities are — so the components of spec sections 2-5
(TileAssigner, CarryChain, LocalReducer, LookbackProtocol,
FallbackProtocol, TileFinisher, Orchestrator) are modelled here as an
operational small-step system: one machine per tile, stepped in an
arbitrary interleaving chosen by a schedule, exactly following the
state-machine description of spec sections 4.2-4.5. -/

/-- Tri-state status of a CarryChain slot (spec section 3). -/
inductive Status where
  | Invalid
  | LocalReady
  | GlobalReady
deriving DecidableEq

/-- One CarryChain entry: a status and a monoid value (spec section 3). -/
structure Slot (α : Type) where
  status : Status
  value : α
deriving DecidableEq

/-- Per-dispatch output behavior (spec section 3). -/
inductive ScanMode where
  | exclusive
  | inclusive
  | reduce
deriving DecidableEq

/-- Control point of one tile's workgroup, per the flow of spec
section 2: read slice / LocalReducer / publish LocalReady (`start` step),
then the LookbackProtocol loop (`lookback`, holding the cursor and the
accumulator), then TileFinisher (`finish`, holding the recovered
predecessor value), then `done`. -/
inductive Phase (α : Type) where
  | start
  | lookback (cursor : Nat) (acc : α)
  | finish (acc : α)
  | done
deriving DecidableEq

/-- Dispatch configuration (spec section 6): the externally supplied
monoid (`combine`, `identity`), the tile size, the scan mode, the input
buffer, and the dispatch's exclusive base `base` (the value that tile 0
behaves as an implicit `GlobalReady` predecessor for; `identity` for an
ordinary dispatch, and the first half's reduce when a scan is seeded as
in the splitting law of spec section 8). -/
structure Config (α : Type) where
  combine : α → α → α
  identity : α
  tileSize : Nat
  mode : ScanMode
  base : α
  input : List α

/-- Global dispatch state: the CarryChain, one machine per tile, and the
output buffer (`none` = never written). -/
structure EngineState (α : Type) where
  chain : Nat → Slot α
  machines : Nat → Phase α
  output : Nat → Option α

/-- Pointwise function update (a store to one slot of a buffer). -/
def fupd {β : Type} (f : Nat → β) (i : Nat) (b : β) : Nat → β :=
  fun j => if j = i then b else f j

theorem fupd_same {β : Type} (f : Nat → β) (i : Nat) (b : β) :
    fupd f i b i = b := by simp [fupd]

theorem fupd_other {β : Type} (f : Nat → β) (i : Nat) (b : β) {j : Nat}
    (h : j ≠ i) : fupd f i b j = f j := by simp [fupd, h]

/-- Input length `n`. -/
def inputLen {α : Type} (cfg : Config α) : Nat := cfg.input.length

/-- TileAssigner (spec section 4.1): `T = ceil(n / tileSize)` tiles. -/
def numTiles {α : Type} (cfg : Config α) : Nat :=
  divRoundUp (inputLen cfg) cfg.tileSize

/-- Reading the input buffer at a global index; an out-of-range read
returns the monoid identity (spec section 4.1). -/
def readInput {α : Type} (cfg : Config α) (g : Nat) : α :=
  cfg.input.getD g cfg.identity

/-- Tile `j`'s slice of the input (spec section 3: contiguous,
non-overlapping; the last tile may be short). -/
def tileSlice {α : Type} (cfg : Config α) (j : Nat) : List α :=
  (cfg.input.drop (j * cfg.tileSize)).take cfg.tileSize

/-- LocalReducer (spec section 4.2): the index-order fold of the tile's
own slice. -/
def localReduce {α : Type} (cfg : Config α) (j : Nat) : α :=
  (tileSlice cfg j).foldl cfg.combine cfg.identity

/-- FallbackProtocol (spec section 4.4): recompute tile `j`'s local
reduction exactly as LocalReducer would, reading tile `j`'s original
input slice directly; a pure function of the immutable input. -/
def fallbackProtocol {α : Type} (cfg : Config α) (j : Nat) : α :=
  (tileSlice cfg j).foldl cfg.combine cfg.identity

/-- Global index one past tile `j`'s last element. -/
def tileEnd {α : Type} (cfg : Config α) (j : Nat) : Nat :=
  min ((j + 1) * cfg.tileSize) (inputLen cfg)

/-- Tile boundary `min (j * tileSize) n` (equals `j * tileSize` for
`j < T` and `n` for `j = T`). -/
def tileBound {α : Type} (cfg : Config α) (j : Nat) : Nat :=
  min (j * cfg.tileSize) (inputLen cfg)

/-- The sequential reference: the left-to-right fold of the first `g`
input elements, seeded by the dispatch base. -/
def seqFold {α : Type} (cfg : Config α) (g : Nat) : α :=
  (cfg.input.take g).foldl cfg.combine cfg.base

/-- The value the configured mode stores at output index `g` (exclusive:
fold before `g`; inclusive: fold through `g`; the reduce mode writes no
per-element output). -/
def modeValue {α : Type} (cfg : Config α) (g : Nat) : α :=
  match cfg.mode with
  | .exclusive => seqFold cfg g
  | .inclusive => seqFold cfg (g + 1)
  | .reduce => seqFold cfg g

/-- TileFinisher's output-slice write (spec section 4.5): in the scan
modes, the intra-tile scan of tile `i`'s own elements seeded by the
recovered predecessor value `acc` as the exclusive base; the reduce mode
writes nothing. -/
def tileWrite {α : Type} (cfg : Config α) (i : Nat) (acc : α)
    (out : Nat → Option α) : Nat → Option α :=
  fun g =>
    if i * cfg.tileSize ≤ g ∧ g < tileEnd cfg i then
      match cfg.mode with
      | .exclusive =>
          some (((cfg.input.drop (i * cfg.tileSize)).take
            (g - i * cfg.tileSize)).foldl cfg.combine acc)
      | .inclusive =>
          some (((cfg.input.drop (i * cfg.tileSize)).take
            (g - i * cfg.tileSize + 1)).foldl cfg.combine acc)
      | .reduce => out g
    else out g

/-- One iteration of the LookbackProtocol loop (spec section 4.3),
reading `CarryChain[cursor]`:

* `GlobalReady`: `accumulated = combine(value, accumulated)` and the
  loop terminates successfully into TileFinisher.
* `LocalReady`: `accumulated = combine(value, accumulated)`, decrement
  the cursor; the slot before tile 0 is implicitly `GlobalReady` with
  the dispatch base, so at `cursor = 0` the loop terminates with the
  base combined in.
* `Invalid`: FallbackProtocol recomputes that tile's local reduction
  from the immutable input (no shared-state write, no waiting), and the
  result is treated as a `LocalReady` find. -/
def lookbackNext {α : Type} (cfg : Config α) (s : EngineState α)
    (cursor : Nat) (acc : α) : Phase α :=
  match (s.chain cursor).status with
  | .GlobalReady => Phase.finish (cfg.combine (s.chain cursor).value acc)
  | .LocalReady =>
      if cursor = 0 then
        Phase.finish (cfg.combine cfg.base
          (cfg.combine (s.chain cursor).value acc))
      else
        Phase.lookback (cursor - 1)
          (cfg.combine (s.chain cursor).value acc)
  | .Invalid =>
      if cursor = 0 then
        Phase.finish (cfg.combine cfg.base
          (cfg.combine (fallbackProtocol cfg cursor) acc))
      else
        Phase.lookback (cursor - 1)
          (cfg.combine (fallbackProtocol cfg cursor) acc)

/-- One atomic step of tile `i`'s machine, following spec sections
4.2-4.5:

* `start`: LocalReducer folds the tile's slice and publishes
  `CarryChain[i] = {LocalReady, localResult}`; the LookbackProtocol is
  entered with `accumulated = identity`, `cursor = i - 1` (tile 0 has no
  predecessors and proceeds directly to TileFinisher with the dispatch
  base).
* `lookback cursor acc`: reads `CarryChain[cursor]`.  `GlobalReady`:
  combine and terminate.  `LocalReady`: combine and decrement (the
  implicit slot before tile 0 is `GlobalReady` with the dispatch base).
  `Invalid`: FallbackProtocol recomputes that tile's local reduction (no
  write to any shared state), then the same combine/decrement step.
* `finish acc`: TileFinisher publishes
  `CarryChain[i] = {GlobalReady, combine acc localResult}` and writes
  the tile's output slice.
* `done`: no further effect. -/
def stepTile {α : Type} (cfg : Config α) (s : EngineState α) (i : Nat) :
    EngineState α :=
  match s.machines i with
  | .start =>
      { chain := fupd s.chain i ⟨.LocalReady, localReduce cfg i⟩
        machines := fupd s.machines i
          (if i = 0 then .finish cfg.base else .lookback (i - 1) cfg.identity)
        output := s.output }
  | .lookback cursor acc =>
      { chain := s.chain
        machines := fupd s.machines i (lookbackNext cfg s cursor acc)
        output := s.output }
  | .finish acc =>
      { chain := fupd s.chain i
          ⟨.GlobalReady, cfg.combine acc (localReduce cfg i)⟩
        machines := fupd s.machines i .done
        output := tileWrite cfg i acc s.output }
  | .done => s

/-- A scheduler step: tile ids outside the dispatch do nothing. -/
def step {α : Type} (cfg : Config α) (s : EngineState α) (i : Nat) :
    EngineState α :=
  if i < numTiles cfg then stepTile cfg s i else s

/-- The state at dispatch launch: CarryChain zero/Invalid-initialized
(spec section 6), every machine at its first instruction, output buffer
unwritten. -/
def initState {α : Type} (cfg : Config α) : EngineState α :=
  { chain := fun _ => ⟨.Invalid, cfg.identity⟩
    machines := fun _ => .start
    output := fun _ => none }

/-- Run a schedule (a list of tile ids, each an atomic step of that
tile's machine) from a state. -/
def runFrom {α : Type} (cfg : Config α) (s : EngineState α)
    (sched : List Nat) : EngineState α :=
  sched.foldl (step cfg) s

/-- Run a schedule from the launch state. -/
def run {α : Type} (cfg : Config α) (sched : List Nat) : EngineState α :=
  runFrom cfg (initState cfg) sched

/-- All tiles of the dispatch have completed. -/
def Completed {α : Type} (cfg : Config α) (s : EngineState α) : Prop :=
  ∀ j, j < numTiles cfg → s.machines j = Phase.done

/-- Three consecutive steps for each of tiles `0, …, m-1` in order. -/
def tripleSched : Nat → List Nat
  | 0 => []
  | m + 1 => tripleSched m ++ [m, m, m]

/-- The canonical in-order schedule (three steps suffice per tile when
its predecessor has already finished). -/
def canonicalSched {α : Type} (cfg : Config α) : List Nat :=
  tripleSched (numTiles cfg)

/-- The engine's final state under the canonical schedule. -/
def engineRun {α : Type} (cfg : Config α) : EngineState α :=
  run cfg (canonicalSched cfg)

/-- The engine's output buffer. -/
def engineOutput {α : Type} (cfg : Config α) (g : Nat) : Option α :=
  (engineRun cfg).output g

/-- The dispatch's reduce result (spec section 4.5):
`CarryChain[T-1].value`, or the base (identity, for an ordinary
dispatch) if `T = 0`. -/
def engineReduce {α : Type} (cfg : Config α) : α :=
  if numTiles cfg = 0 then cfg.base
  else ((engineRun cfg).chain (numTiles cfg - 1)).value

/-! ### Tile geometry -/

theorem numTiles_eq_zero_iff {α : Type} (cfg : Config α)
    (hts : 0 < cfg.tileSize) : numTiles cfg = 0 ↔ inputLen cfg = 0 := by
  unfold numTiles divRoundUp
  rw [Nat.div_eq_zero_iff hts]
  omega

theorem lt_inputLen_of_lt_numTiles {α : Type} (cfg : Config α)
    (hts : 0 < cfg.tileSize) {j : Nat} (hj : j < numTiles cfg) :
    j * cfg.tileSize < inputLen cfg := by
  unfold numTiles divRoundUp at hj
  have h := (Nat.le_div_iff_mul_le hts).mp
    (by omega : j + 1 ≤ (inputLen cfg + cfg.tileSize - 1) / cfg.tileSize)
  have h2 : (j + 1) * cfg.tileSize = j * cfg.tileSize + cfg.tileSize := by ring
  omega

theorem inputLen_le_numTiles_mul {α : Type} (cfg : Config α)
    (hts : 0 < cfg.tileSize) : inputLen cfg ≤ numTiles cfg * cfg.tileSize := by
  unfold numTiles divRoundUp
  have h1 := Nat.div_add_mod (inputLen cfg + cfg.tileSize - 1) cfg.tileSize
  have h2 := Nat.mod_lt (inputLen cfg + cfg.tileSize - 1) hts
  have h3 : (inputLen cfg + cfg.tileSize - 1) / cfg.tileSize * cfg.tileSize =
      cfg.tileSize * ((inputLen cfg + cfg.tileSize - 1) / cfg.tileSize) := by
    ring
  omega

theorem tileBound_of_lt {α : Type} (cfg : Config α) (hts : 0 < cfg.tileSize)
    {j : Nat} (hj : j < numTiles cfg) :
    tileBound cfg j = j * cfg.tileSize :=
  min_eq_left (le_of_lt (lt_inputLen_of_lt_numTiles cfg hts hj))

theorem tileBound_numTiles {α : Type} (cfg : Config α)
    (hts : 0 < cfg.tileSize) : tileBound cfg (numTiles cfg) = inputLen cfg :=
  min_eq_right (inputLen_le_numTiles_mul cfg hts)

theorem tileBound_le {α : Type} (cfg : Config α) (j : Nat) :
    tileBound cfg j ≤ inputLen cfg := min_le_right _ _

theorem tileEnd_eq_tileBound {α : Type} (cfg : Config α) (j : Nat) :
    tileEnd cfg j = tileBound cfg (j + 1) := rfl

/-- Taking the input through tile `j` appends tile `j`'s slice to the
input before tile `j`. -/
theorem take_tileBound_succ {α : Type} (cfg : Config α)
    (hts : 0 < cfg.tileSize) {j : Nat} (hj : j < numTiles cfg) :
    cfg.input.take (tileBound cfg (j + 1)) =
      cfg.input.take (j * cfg.tileSize) ++ tileSlice cfg j := by
  by_cases h : (j + 1) * cfg.tileSize ≤ inputLen cfg
  · have hb : tileBound cfg (j + 1) = (j + 1) * cfg.tileSize := min_eq_left h
    have hsum : (j + 1) * cfg.tileSize = j * cfg.tileSize + cfg.tileSize := by
      ring
    rw [hb, hsum, List.take_add]
    rfl
  · have hb : tileBound cfg (j + 1) = inputLen cfg := min_eq_right (by omega)
    have hexp : (j + 1) * cfg.tileSize = j * cfg.tileSize + cfg.tileSize := by
      ring
    rw [hexp] at h
    have h2 : (cfg.input.drop (j * cfg.tileSize)).take cfg.tileSize =
        cfg.input.drop (j * cfg.tileSize) := by
      apply List.take_of_length_le
      rw [List.length_drop]
      have : cfg.input.length = inputLen cfg := rfl
      omega
    show cfg.input.take (tileBound cfg (j + 1)) =
      cfg.input.take (j * cfg.tileSize) ++
        (cfg.input.drop (j * cfg.tileSize)).take cfg.tileSize
    rw [hb, h2, List.take_append_drop]
    exact (List.take_length cfg.input).symm ▸ rfl

/-! ### Fold algebra -/

theorem foldl_combine_assoc {α : Type} (cfg : Config α)
    (hassoc : ∀ a b c,
      cfg.combine (cfg.combine a b) c = cfg.combine a (cfg.combine b c)) :
    ∀ (L : List α) (acc c : α),
      cfg.combine c (L.foldl cfg.combine acc) =
        L.foldl cfg.combine (cfg.combine c acc) := by
  intro L
  induction L with
  | nil => intro acc c; rfl
  | cons x L ih =>
    intro acc c
    show cfg.combine c (L.foldl cfg.combine (cfg.combine acc x)) =
      L.foldl cfg.combine (cfg.combine (cfg.combine c acc) x)
    rw [ih, hassoc]

theorem combine_foldl_identity {α : Type} (cfg : Config α)
    (hassoc : ∀ a b c,
      cfg.combine (cfg.combine a b) c = cfg.combine a (cfg.combine b c))
    (hidr : ∀ a, cfg.combine a cfg.identity = a) (L : List α) (c : α) :
    cfg.combine c (L.foldl cfg.combine cfg.identity) =
      L.foldl cfg.combine c := by
  rw [foldl_combine_assoc cfg hassoc, hidr]

/-- Absorbing one tile's local reduction into the running sequential
fold advances it one tile boundary. -/
theorem seqFold_tile_step {α : Type} (cfg : Config α)
    (hassoc : ∀ a b c,
      cfg.combine (cfg.combine a b) c = cfg.combine a (cfg.combine b c))
    (hidr : ∀ a, cfg.combine a cfg.identity = a)
    (hts : 0 < cfg.tileSize) {j : Nat} (hj : j < numTiles cfg) :
    cfg.combine (seqFold cfg (tileBound cfg j)) (localReduce cfg j) =
      seqFold cfg (tileBound cfg (j + 1)) := by
  unfold seqFold
  rw [take_tileBound_succ cfg hts hj, List.foldl_append,
    tileBound_of_lt cfg hts hj]
  exact combine_foldl_identity cfg hassoc hidr (tileSlice cfg j) _

/-- Tile indices `[a, b)`. -/
def tileRange (a b : Nat) : List Nat := (List.range (b - a)).map (a + ·)

/-- The combine of the local reductions of tiles `[a, b)`, associated
the way the lookback accumulator builds it (new finds on the left). -/
def tilesFold {α : Type} (cfg : Config α) (a b : Nat) : α :=
  (tileRange a b).foldr (fun j acc => cfg.combine (localReduce cfg j) acc)
    cfg.identity

theorem tilesFold_self {α : Type} (cfg : Config α) (a : Nat) :
    tilesFold cfg a a = cfg.identity := by
  simp [tilesFold, tileRange]

theorem tileRange_cons {a b : Nat} (h : a < b) :
    tileRange a b = a :: tileRange (a + 1) b := by
  unfold tileRange
  have h1 : b - a = (b - (a + 1)) + 1 := by omega
  rw [h1, List.range_succ_eq_map]
  simp only [List.map_cons, Nat.add_zero, List.map_map]
  refine congrArg (a :: ·) (List.map_congr_left ?_)
  intro x hx
  show a + (x + 1) = (a + 1) + x
  omega

theorem tilesFold_cons {α : Type} (cfg : Config α) {a b : Nat} (h : a < b) :
    tilesFold cfg a b =
      cfg.combine (localReduce cfg a) (tilesFold cfg (a + 1) b) := by
  unfold tilesFold
  rw [tileRange_cons h]
  rfl

/-- Folding the local reductions of tiles `[a, a + k)` into the
sequential fold up to tile `a` gives the sequential fold up to tile
`a + k`. -/
theorem tilesFold_seqFold {α : Type} (cfg : Config α)
    (hassoc : ∀ a b c,
      cfg.combine (cfg.combine a b) c = cfg.combine a (cfg.combine b c))
    (hidr : ∀ a, cfg.combine a cfg.identity = a)
    (hts : 0 < cfg.tileSize) :
    ∀ k a, a + k ≤ numTiles cfg →
      cfg.combine (seqFold cfg (tileBound cfg a)) (tilesFold cfg a (a + k)) =
        seqFold cfg (tileBound cfg (a + k)) := by
  intro k
  induction k with
  | zero =>
    intro a ha
    rw [Nat.add_zero, tilesFold_self, hidr]
  | succ k ih =>
    intro a ha
    have hab : a < a + (k + 1) := by omega
    rw [tilesFold_cons cfg hab, ← hassoc,
      seqFold_tile_step cfg hassoc hidr hts (show a < numTiles cfg by omega)]
    have h2 : a + (k + 1) = (a + 1) + k := by omega
    rw [h2]
    exact ih (a + 1) (by omega)

/-! ### Step unfolding -/

theorem stepTile_start {α : Type} (cfg : Config α) (s : EngineState α)
    (i : Nat) (h : s.machines i = Phase.start) :
    stepTile cfg s i =
      { chain := fupd s.chain i ⟨Status.LocalReady, localReduce cfg i⟩
        machines := fupd s.machines i
          (if i = 0 then Phase.finish cfg.base
           else Phase.lookback (i - 1) cfg.identity)
        output := s.output } := by
  unfold stepTile
  rw [h]

theorem stepTile_lookback {α : Type} (cfg : Config α) (s : EngineState α)
    (i cursor : Nat) (acc : α) (h : s.machines i = Phase.lookback cursor acc) :
    stepTile cfg s i =
      { chain := s.chain
        machines := fupd s.machines i (lookbackNext cfg s cursor acc)
        output := s.output } := by
  unfold stepTile
  rw [h]

theorem stepTile_finish {α : Type} (cfg : Config α) (s : EngineState α)
    (i : Nat) (acc : α) (h : s.machines i = Phase.finish acc) :
    stepTile cfg s i =
      { chain := fupd s.chain i
          ⟨Status.GlobalReady, cfg.combine acc (localReduce cfg i)⟩
        machines := fupd s.machines i Phase.done
        output := tileWrite cfg i acc s.output } := by
  unfold stepTile
  rw [h]

theorem stepTile_done {α : Type} (cfg : Config α) (s : EngineState α)
    (i : Nat) (h : s.machines i = Phase.done) : stepTile cfg s i = s := by
  unfold stepTile
  rw [h]

theorem lookbackNext_global {α : Type} (cfg : Config α) (s : EngineState α)
    (cursor : Nat) (acc : α)
    (h : (s.chain cursor).status = Status.GlobalReady) :
    lookbackNext cfg s cursor acc =
      Phase.finish (cfg.combine (s.chain cursor).value acc) := by
  unfold lookbackNext
  rw [h]

theorem lookbackNext_local_stop {α : Type} (cfg : Config α)
    (s : EngineState α) (cursor : Nat) (acc : α)
    (h : (s.chain cursor).status = Status.LocalReady) (h0 : cursor = 0) :
    lookbackNext cfg s cursor acc =
      Phase.finish (cfg.combine cfg.base
        (cfg.combine (s.chain cursor).value acc)) := by
  unfold lookbackNext
  rw [h, if_pos h0]

theorem lookbackNext_local_cont {α : Type} (cfg : Config α)
    (s : EngineState α) (cursor : Nat) (acc : α)
    (h : (s.chain cursor).status = Status.LocalReady) (h0 : cursor ≠ 0) :
    lookbackNext cfg s cursor acc =
      Phase.lookback (cursor - 1)
        (cfg.combine (s.chain cursor).value acc) := by
  unfold lookbackNext
  rw [h, if_neg h0]

theorem lookbackNext_invalid_stop {α : Type} (cfg : Config α)
    (s : EngineState α) (cursor : Nat) (acc : α)
    (h : (s.chain cursor).status = Status.Invalid) (h0 : cursor = 0) :
    lookbackNext cfg s cursor acc =
      Phase.finish (cfg.combine cfg.base
        (cfg.combine (fallbackProtocol cfg cursor) acc)) := by
  subst h0
  unfold lookbackNext
  rw [h]
  rfl

theorem lookbackNext_invalid_cont {α : Type} (cfg : Config α)
    (s : EngineState α) (cursor : Nat) (acc : α)
    (h : (s.chain cursor).status = Status.Invalid) (h0 : cursor ≠ 0) :
    lookbackNext cfg s cursor acc =
      Phase.lookback (cursor - 1)
        (cfg.combine (fallbackProtocol cfg cursor) acc) := by
  unfold lookbackNext
  rw [h]
  simp only [if_neg h0]

/-- The LookbackProtocol never blocks: each iteration either terminates
the loop (into TileFinisher) or continues with a strictly smaller
cursor. -/
theorem lookbackNext_cases {α : Type} (cfg : Config α) (s : EngineState α)
    (cursor : Nat) (acc : α) :
    (∃ a, lookbackNext cfg s cursor acc = Phase.finish a) ∨
    (0 < cursor ∧ ∃ a, lookbackNext cfg s cursor acc =
      Phase.lookback (cursor - 1) a) := by
  cases hst : (s.chain cursor).status with
  | GlobalReady => exact Or.inl ⟨_, lookbackNext_global cfg s cursor acc hst⟩
  | LocalReady =>
    by_cases h0 : cursor = 0
    · exact Or.inl ⟨_, lookbackNext_local_stop cfg s cursor acc hst h0⟩
    · exact Or.inr ⟨by omega, _, lookbackNext_local_cont cfg s cursor acc hst h0⟩
  | Invalid =>
    by_cases h0 : cursor = 0
    · exact Or.inl ⟨_, lookbackNext_invalid_stop cfg s cursor acc hst h0⟩
    · exact Or.inr ⟨by omega, _, lookbackNext_invalid_cont cfg s cursor acc hst h0⟩

/-! ### The phase-status link invariant -/

/-- The relation between a tile's machine phase and its own CarryChain
slot status: the slot is `Invalid` until LocalReducer publishes,
`LocalReady` during lookback and finish, and `GlobalReady` exactly once
the tile is done. -/
def LinkOK {α : Type} : Phase α → Status → Prop
  | Phase.start, Status.Invalid => True
  | Phase.lookback _ _, Status.LocalReady => True
  | Phase.finish _, Status.LocalReady => True
  | Phase.done, Status.GlobalReady => True
  | _, _ => False

theorem linkOK_start_iff {α : Type} (st : Status) :
    LinkOK (Phase.start : Phase α) st ↔ st = Status.Invalid := by
  cases st <;> simp [LinkOK]

theorem linkOK_lookback_iff {α : Type} (c : Nat) (a : α) (st : Status) :
    LinkOK (Phase.lookback c a) st ↔ st = Status.LocalReady := by
  cases st <;> simp [LinkOK]

theorem linkOK_finish_iff {α : Type} (a : α) (st : Status) :
    LinkOK (Phase.finish a) st ↔ st = Status.LocalReady := by
  cases st <;> simp [LinkOK]

theorem linkOK_done_iff {α : Type} (st : Status) :
    LinkOK (Phase.done : Phase α) st ↔ st = Status.GlobalReady := by
  cases st <;> simp [LinkOK]

/-- Every tile's machine phase is linked to its own slot's status. -/
def InvLink {α : Type} (s : EngineState α) : Prop :=
  ∀ j, LinkOK (s.machines j) ((s.chain j).status)

theorem invLink_init {α : Type} (cfg : Config α) :
    InvLink (initState cfg) := by
  intro j
  exact trivial

theorem invLink_step {α : Type} (cfg : Config α) (s : EngineState α)
    (i : Nat) (h : InvLink s) : InvLink (step cfg s i) := by
  unfold step
  by_cases hi : i < numTiles cfg
  · rw [if_pos hi]
    match hm : s.machines i with
    | Phase.start =>
      rw [stepTile_start cfg s i hm]
      intro j
      by_cases hj : j = i
      · subst hj
        show LinkOK (fupd s.machines j _ j) ((fupd s.chain j _ j).status)
        rw [fupd_same, fupd_same]
        by_cases h0 : j = 0 <;> simp [h0, LinkOK]
      · show LinkOK (fupd s.machines i _ j) ((fupd s.chain i _ j).status)
        rw [fupd_other _ _ _ hj, fupd_other _ _ _ hj]
        exact h j
    | Phase.lookback cursor acc =>
      rw [stepTile_lookback cfg s i cursor acc hm]
      intro j
      by_cases hj : j = i
      · subst hj
        show LinkOK (fupd s.machines j _ j) ((s.chain j).status)
        rw [fupd_same]
        have hst : (s.chain j).status = Status.LocalReady :=
          (linkOK_lookback_iff cursor acc _).mp (hm ▸ h j)
        rw [hst]
        rcases lookbackNext_cases cfg s cursor acc with ⟨a, ha⟩ | ⟨_, a, ha⟩ <;>
          rw [ha] <;> exact trivial
      · show LinkOK (fupd s.machines i _ j) ((s.chain j).status)
        rw [fupd_other _ _ _ hj]
        exact h j
    | Phase.finish acc =>
      rw [stepTile_finish cfg s i acc hm]
      intro j
      by_cases hj : j = i
      · subst hj
        show LinkOK (fupd s.machines j _ j) ((fupd s.chain j _ j).status)
        rw [fupd_same, fupd_same]
        exact trivial
      · show LinkOK (fupd s.machines i _ j) ((fupd s.chain i _ j).status)
        rw [fupd_other _ _ _ hj, fupd_other _ _ _ hj]
        exact h j
    | Phase.done =>
      rw [stepTile_done cfg s i hm]
      exact h
  · rw [if_neg hi]
    exact h

theorem invLink_runFrom {α : Type} (cfg : Config α) :
    ∀ (sched : List Nat) (s : EngineState α),
      InvLink s → InvLink (runFrom cfg s sched) := by
  intro sched
  induction sched with
  | nil => intro s h; exact h
  | cons x rest ih =>
    intro s h
    exact ih (step cfg s x) (invLink_step cfg s x h)

theorem invLink_run {α : Type} (cfg : Config α) (sched : List Nat) :
    InvLink (run cfg sched) :=
  invLink_runFrom cfg sched (initState cfg) (invLink_init cfg)

/-! ### The value invariant -/

theorem fallback_eq_localReduce {α : Type} (cfg : Config α) (j : Nat) :
    fallbackProtocol cfg j = localReduce cfg j := rfl

theorem tileBound_zero {α : Type} (cfg : Config α) : tileBound cfg 0 = 0 := by
  simp [tileBound]

theorem seqFold_zero {α : Type} (cfg : Config α) : seqFold cfg 0 = cfg.base := rfl

/-- Correctness of all published values and in-flight registers: tile
ids outside the dispatch are never touched; a `LocalReady` slot holds
its tile's local reduction and a `GlobalReady` slot the sequential fold
through its tile; a lookback machine's accumulator is the combine of the
predecessor tiles it has already absorbed; a finishing machine's
accumulator is the sequential fold of everything before its tile. -/
def InvVal {α : Type} (cfg : Config α) (s : EngineState α) : Prop :=
  (∀ j, numTiles cfg ≤ j →
    s.machines j = Phase.start ∧
    s.chain j = ⟨Status.Invalid, cfg.identity⟩) ∧
  (∀ j, j < numTiles cfg →
    ((s.chain j).status = Status.LocalReady →
      (s.chain j).value = localReduce cfg j) ∧
    ((s.chain j).status = Status.GlobalReady →
      (s.chain j).value = seqFold cfg (tileBound cfg (j + 1))) ∧
    (∀ c a, s.machines j = Phase.lookback c a →
      c < j ∧ a = tilesFold cfg (c + 1) j) ∧
    (∀ a, s.machines j = Phase.finish a →
      a = seqFold cfg (tileBound cfg j)))

theorem invVal_init {α : Type} (cfg : Config α) : InvVal cfg (initState cfg) := by
  constructor
  · intro j hj
    exact ⟨rfl, rfl⟩
  · intro j hj
    refine ⟨?_, ?_, ?_, ?_⟩
    · intro hst; exact absurd hst (by simp [initState])
    · intro hst; exact absurd hst (by simp [initState])
    · intro c a hph; exact absurd hph (by simp [initState])
    · intro a hph; exact absurd hph (by simp [initState])

theorem invVal_step {α : Type} (cfg : Config α)
    (hassoc : ∀ a b c,
      cfg.combine (cfg.combine a b) c = cfg.combine a (cfg.combine b c))
    (hidr : ∀ a, cfg.combine a cfg.identity = a)
    (hts : 0 < cfg.tileSize) (s : EngineState α) (i : Nat)
    (h : InvVal cfg s) : InvVal cfg (step cfg s i) := by
  obtain ⟨hout, hin⟩ := h
  unfold step
  by_cases hi : i < numTiles cfg
  · rw [if_pos hi]
    match hm : s.machines i with
    | Phase.start =>
      rw [stepTile_start cfg s i hm]
      constructor
      · intro j hj
        have hne : j ≠ i := by omega
        dsimp only
        rw [fupd_other _ _ _ hne, fupd_other _ _ _ hne]
        exact hout j hj
      · intro j hj
        dsimp only
        by_cases hje : j = i
        · subst hje
          rw [fupd_same, fupd_same]
          refine ⟨?_, ?_, ?_, ?_⟩
          · intro _
            rfl
          · intro hst
            nomatch hst
          · intro c a hph
            by_cases h0 : j = 0
            · rw [if_pos h0] at hph
              nomatch hph
            · rw [if_neg h0] at hph
              injection hph with h1 h2
              refine ⟨by omega, ?_⟩
              have hc : c + 1 = j := by omega
              rw [← h2, hc, tilesFold_self]
          · intro a hph
            by_cases h0 : j = 0
            · rw [if_pos h0] at hph
              injection hph with h1
              subst h0
              rw [tileBound_zero, seqFold_zero]
              exact h1.symm
            · rw [if_neg h0] at hph
              nomatch hph
        · rw [fupd_other _ _ _ hje, fupd_other _ _ _ hje]
          exact hin j hj
    | Phase.lookback cursor acc =>
      rw [stepTile_lookback cfg s i cursor acc hm]
      obtain ⟨hcur, hacc⟩ := (hin i hi).2.2.1 cursor acc hm
      constructor
      · intro j hj
        have hne : j ≠ i := by omega
        dsimp only
        rw [fupd_other _ _ _ hne]
        exact hout j hj
      · intro j hj
        dsimp only
        by_cases hje : j = i
        · subst hje
          rw [fupd_same]
          refine ⟨(hin j hj).1, (hin j hj).2.1, ?_, ?_⟩
          · intro c a hph
            cases hst : (s.chain cursor).status with
            | GlobalReady =>
              rw [lookbackNext_global cfg s cursor acc hst] at hph
              nomatch hph
            | LocalReady =>
              by_cases h0 : cursor = 0
              · rw [lookbackNext_local_stop cfg s cursor acc hst h0] at hph
                nomatch hph
              · rw [lookbackNext_local_cont cfg s cursor acc hst h0] at hph
                injection hph with h1 h2
                refine ⟨by omega, ?_⟩
                have hval : (s.chain cursor).value = localReduce cfg cursor :=
                  (hin cursor (by omega)).1 hst
                have hc1 : c + 1 = cursor := by omega
                rw [← h2, hval, hacc, hc1,
                  ← tilesFold_cons cfg (show cursor < j by omega)]
            | Invalid =>
              by_cases h0 : cursor = 0
              · rw [lookbackNext_invalid_stop cfg s cursor acc hst h0] at hph
                nomatch hph
              · rw [lookbackNext_invalid_cont cfg s cursor acc hst h0] at hph
                injection hph with h1 h2
                refine ⟨by omega, ?_⟩
                have hc1 : c + 1 = cursor := by omega
                rw [← h2, fallback_eq_localReduce, hacc, hc1,
                  ← tilesFold_cons cfg (show cursor < j by omega)]
          · intro a hph
            cases hst : (s.chain cursor).status with
            | GlobalReady =>
              rw [lookbackNext_global cfg s cursor acc hst] at hph
              injection hph with h1
              have hval : (s.chain cursor).value =
                  seqFold cfg (tileBound cfg (cursor + 1)) :=
                (hin cursor (by omega)).2.1 hst
              have hkey := tilesFold_seqFold cfg hassoc hidr hts
                (j - (cursor + 1)) (cursor + 1) (by omega)
              have hc1 : cursor + 1 + (j - (cursor + 1)) = j := by omega
              rw [hc1] at hkey
              rw [← h1, hval, hacc, hkey]
            | LocalReady =>
              by_cases h0 : cursor = 0
              · rw [lookbackNext_local_stop cfg s cursor acc hst h0] at hph
                injection hph with h1
                have hval : (s.chain cursor).value = localReduce cfg cursor :=
                  (hin cursor (by omega)).1 hst
                subst h0
                have hkey := tilesFold_seqFold cfg hassoc hidr hts j 0 (by omega)
                rw [Nat.zero_add, tileBound_zero, seqFold_zero] at hkey
                rw [← h1, hval, hacc,
                  ← tilesFold_cons cfg (show 0 < j by omega), hkey]
              · rw [lookbackNext_local_cont cfg s cursor acc hst h0] at hph
                nomatch hph
            | Invalid =>
              by_cases h0 : cursor = 0
              · rw [lookbackNext_invalid_stop cfg s cursor acc hst h0] at hph
                injection hph with h1
                subst h0
                have hkey := tilesFold_seqFold cfg hassoc hidr hts j 0 (by omega)
                rw [Nat.zero_add, tileBound_zero, seqFold_zero] at hkey
                rw [← h1, fallback_eq_localReduce, hacc,
                  ← tilesFold_cons cfg (show 0 < j by omega), hkey]
              · rw [lookbackNext_invalid_cont cfg s cursor acc hst h0] at hph
                nomatch hph
        · rw [fupd_other _ _ _ hje]
          exact hin j hj
    | Phase.finish acc =>
      rw [stepTile_finish cfg s i acc hm]
      have hacc : acc = seqFold cfg (tileBound cfg i) := (hin i hi).2.2.2 acc hm
      constructor
      · intro j hj
        have hne : j ≠ i := by omega
        dsimp only
        rw [fupd_other _ _ _ hne, fupd_other _ _ _ hne]
        exact hout j hj
      · intro j hj
        dsimp only
        by_cases hje : j = i
        · subst hje
          rw [fupd_same, fupd_same]
          refine ⟨?_, ?_, ?_, ?_⟩
          · intro hst
            nomatch hst
          · intro _
            show cfg.combine acc (localReduce cfg j) = _
            rw [hacc, seqFold_tile_step cfg hassoc hidr hts hj]
          · intro c a hph
            nomatch hph
          · intro a hph
            nomatch hph
        · rw [fupd_other _ _ _ hje, fupd_other _ _ _ hje]
          exact hin j hj
    | Phase.done =>
      rw [stepTile_done cfg s i hm]
      exact ⟨hout, hin⟩
  · rw [if_neg hi]
    exact ⟨hout, hin⟩

/-! ### The output invariant -/

theorem div_eq_iff_bounds {ts : Nat} (hts : 0 < ts) (g i : Nat) :
    g / ts = i ↔ i * ts ≤ g ∧ g < (i + 1) * ts := by
  constructor
  · intro h
    subst h
    refine ⟨Nat.div_mul_le_self g ts, ?_⟩
    have h1 := Nat.div_add_mod g ts
    have h2 := Nat.mod_lt g hts
    have h3 : (g / ts + 1) * ts = ts * (g / ts) + ts := by ring
    omega
  · rintro ⟨h1, h2⟩
    exact Nat.div_eq_of_lt_le h1 h2

theorem seqFold_split {α : Type} (cfg : Config α) (a k : Nat) :
    seqFold cfg (a + k) =
      ((cfg.input.drop a).take k).foldl cfg.combine (seqFold cfg a) := by
  unfold seqFold
  rw [List.take_add, List.foldl_append]

theorem tileWrite_not_in {α : Type} (cfg : Config α) (i : Nat) (acc : α)
    (out : Nat → Option α) (g : Nat)
    (h : ¬(i * cfg.tileSize ≤ g ∧ g < tileEnd cfg i)) :
    tileWrite cfg i acc out g = out g := by
  unfold tileWrite
  rw [if_neg h]

theorem tileWrite_reduce {α : Type} (cfg : Config α) (i : Nat) (acc : α)
    (out : Nat → Option α) (g : Nat) (hmode : cfg.mode = ScanMode.reduce) :
    tileWrite cfg i acc out g = out g := by
  unfold tileWrite
  by_cases h : i * cfg.tileSize ≤ g ∧ g < tileEnd cfg i
  · rw [if_pos h, hmode]
  · rw [if_neg h]

theorem tileWrite_in_exclusive {α : Type} (cfg : Config α) (i : Nat)
    (acc : α) (out : Nat → Option α) (g : Nat)
    (hmode : cfg.mode = ScanMode.exclusive)
    (h : i * cfg.tileSize ≤ g ∧ g < tileEnd cfg i) :
    tileWrite cfg i acc out g =
      some (((cfg.input.drop (i * cfg.tileSize)).take
        (g - i * cfg.tileSize)).foldl cfg.combine acc) := by
  unfold tileWrite
  rw [if_pos h, hmode]

theorem tileWrite_in_inclusive {α : Type} (cfg : Config α) (i : Nat)
    (acc : α) (out : Nat → Option α) (g : Nat)
    (hmode : cfg.mode = ScanMode.inclusive)
    (h : i * cfg.tileSize ≤ g ∧ g < tileEnd cfg i) :
    tileWrite cfg i acc out g =
      some (((cfg.input.drop (i * cfg.tileSize)).take
        (g - i * cfg.tileSize + 1)).foldl cfg.combine acc) := by
  unfold tileWrite
  rw [if_pos h, hmode]

/-- Correctness and extent of the output buffer: nothing is written past
the input length; the reduce mode writes no per-element output; in the
scan modes, output index `g` is written (with the sequential value the
mode prescribes) exactly when the machine owning `g`'s tile is done. -/
def InvOut {α : Type} (cfg : Config α) (s : EngineState α) : Prop :=
  (∀ g, inputLen cfg ≤ g → s.output g = none) ∧
  (cfg.mode = ScanMode.reduce → ∀ g, s.output g = none) ∧
  (cfg.mode ≠ ScanMode.reduce → ∀ g, g < inputLen cfg →
    (s.machines (g / cfg.tileSize) = Phase.done →
      s.output g = some (modeValue cfg g)) ∧
    (s.machines (g / cfg.tileSize) ≠ Phase.done → s.output g = none))

theorem invOut_init {α : Type} (cfg : Config α) : InvOut cfg (initState cfg) := by
  refine ⟨fun g _ => rfl, fun _ g => rfl, fun _ g _ => ⟨fun hd => ?_, fun _ => rfl⟩⟩
  nomatch hd

theorem invOut_step {α : Type} (cfg : Config α)
    (hts : 0 < cfg.tileSize) (s : EngineState α) (i : Nat)
    (hV : InvVal cfg s) (hO : InvOut cfg s) : InvOut cfg (step cfg s i) := by
  obtain ⟨hOhigh, hOred, hOscan⟩ := hO
  unfold step
  by_cases hi : i < numTiles cfg
  · rw [if_pos hi]
    match hm : s.machines i with
    | Phase.start =>
      rw [stepTile_start cfg s i hm]
      refine ⟨hOhigh, hOred, fun hmode g hg => ?_⟩
      dsimp only
      by_cases hge : g / cfg.tileSize = i
      · rw [hge, fupd_same]
        constructor
        · intro hd
          exfalso
          by_cases h0 : i = 0
          · rw [if_pos h0] at hd; nomatch hd
          · rw [if_neg h0] at hd; nomatch hd
        · intro _
          exact (hOscan hmode g hg).2 (by rw [hge, hm]; intro hc; nomatch hc)
      · rw [fupd_other _ _ _ hge]
        exact hOscan hmode g hg
    | Phase.lookback cursor acc =>
      rw [stepTile_lookback cfg s i cursor acc hm]
      refine ⟨hOhigh, hOred, fun hmode g hg => ?_⟩
      dsimp only
      by_cases hge : g / cfg.tileSize = i
      · rw [hge, fupd_same]
        constructor
        · intro hd
          exfalso
          rcases lookbackNext_cases cfg s cursor acc with ⟨a, ha⟩ | ⟨_, a, ha⟩ <;>
            rw [ha] at hd <;> nomatch hd
        · intro _
          exact (hOscan hmode g hg).2 (by rw [hge, hm]; intro hc; nomatch hc)
      · rw [fupd_other _ _ _ hge]
        exact hOscan hmode g hg
    | Phase.finish acc =>
      rw [stepTile_finish cfg s i acc hm]
      have hacc : acc = seqFold cfg (tileBound cfg i) :=
        (hV.2 i hi).2.2.2 acc hm
      have hstart : tileBound cfg i = i * cfg.tileSize :=
        tileBound_of_lt cfg hts hi
      refine ⟨?_, ?_, ?_⟩
      · intro g hg
        dsimp only
        rw [tileWrite_not_in cfg i acc _ g
          (by unfold tileEnd; omega)]
        exact hOhigh g hg
      · intro hmode g
        dsimp only
        rw [tileWrite_reduce cfg i acc _ g hmode]
        exact hOred hmode g
      · intro hmode g hg
        dsimp only
        by_cases hge : g / cfg.tileSize = i
        · have hbounds := (div_eq_iff_bounds hts g i).mp hge
          have hin : i * cfg.tileSize ≤ g ∧ g < tileEnd cfg i := by
            unfold tileEnd
            omega
          rw [hge, fupd_same]
          constructor
          · intro _
            cases hmodecase : cfg.mode with
            | exclusive =>
              rw [tileWrite_in_exclusive cfg i acc _ g hmodecase hin]
              have hsplit := seqFold_split cfg (i * cfg.tileSize)
                (g - i * cfg.tileSize)
              have hg2 : i * cfg.tileSize + (g - i * cfg.tileSize) = g := by
                omega
              rw [hg2] at hsplit
              rw [hacc, hstart, ← hsplit]
              show _ = some (modeValue cfg g)
              unfold modeValue
              rw [hmodecase]
            | inclusive =>
              rw [tileWrite_in_inclusive cfg i acc _ g hmodecase hin]
              have hsplit := seqFold_split cfg (i * cfg.tileSize)
                (g - i * cfg.tileSize + 1)
              have hg2 : i * cfg.tileSize + (g - i * cfg.tileSize + 1) =
                  g + 1 := by omega
              rw [hg2] at hsplit
              rw [hacc, hstart, ← hsplit]
              show _ = some (modeValue cfg g)
              unfold modeValue
              rw [hmodecase]
            | reduce => exact absurd hmodecase hmode
          · intro hnd
            exact absurd rfl hnd
        · have hnotin : ¬(i * cfg.tileSize ≤ g ∧ g < tileEnd cfg i) := by
            intro hc
            apply hge
            refine (div_eq_iff_bounds hts g i).mpr ⟨hc.1, ?_⟩
            unfold tileEnd at hc
            omega
          rw [fupd_other _ _ _ hge,
            tileWrite_not_in cfg i acc _ g hnotin]
          exact hOscan hmode g hg
    | Phase.done =>
      rw [stepTile_done cfg s i hm]
      exact ⟨hOhigh, hOred, hOscan⟩
  · rw [if_neg hi]
    exact ⟨hOhigh, hOred, hOscan⟩

/-! ### Run-level invariants and the master correctness theorem -/

theorem inv_runFrom {α : Type} (cfg : Config α)
    (hassoc : ∀ a b c,
      cfg.combine (cfg.combine a b) c = cfg.combine a (cfg.combine b c))
    (hidr : ∀ a, cfg.combine a cfg.identity = a)
    (hts : 0 < cfg.tileSize) :
    ∀ (sched : List Nat) (s : EngineState α),
      InvVal cfg s → InvOut cfg s →
      InvVal cfg (runFrom cfg s sched) ∧ InvOut cfg (runFrom cfg s sched) := by
  intro sched
  induction sched with
  | nil => intro s h1 h2; exact ⟨h1, h2⟩
  | cons x rest ih =>
    intro s h1 h2
    exact ih (step cfg s x) (invVal_step cfg hassoc hidr hts s x h1)
      (invOut_step cfg hts s x h1 h2)

theorem inv_run {α : Type} (cfg : Config α)
    (hassoc : ∀ a b c,
      cfg.combine (cfg.combine a b) c = cfg.combine a (cfg.combine b c))
    (hidr : ∀ a, cfg.combine a cfg.identity = a)
    (hts : 0 < cfg.tileSize) (sched : List Nat) :
    InvVal cfg (run cfg sched) ∧ InvOut cfg (run cfg sched) :=
  inv_runFrom cfg hassoc hidr hts sched (initState cfg) (invVal_init cfg)
    (invOut_init cfg)

/-- The reduce result read from a final state (spec section 4.5). -/
def reduceResult {α : Type} (cfg : Config α) (s : EngineState α) : α :=
  if numTiles cfg = 0 then cfg.base else (s.chain (numTiles cfg - 1)).value

/-- Every completed run — regardless of the schedule that produced it —
carries the sequential results: every slot is `GlobalReady` with the
sequential fold through its tile, the scan outputs hold the sequential
exclusive/inclusive values, nothing outside the input range was written,
and the reduce result is the sequential fold of the whole input. -/
theorem run_completed_correct {α : Type} (cfg : Config α)
    (hassoc : ∀ a b c,
      cfg.combine (cfg.combine a b) c = cfg.combine a (cfg.combine b c))
    (hidr : ∀ a, cfg.combine a cfg.identity = a)
    (hts : 0 < cfg.tileSize) (sched : List Nat)
    (hC : Completed cfg (run cfg sched)) :
    (∀ j, j < numTiles cfg →
      ((run cfg sched).chain j).status = Status.GlobalReady ∧
      ((run cfg sched).chain j).value = seqFold cfg (tileBound cfg (j + 1))) ∧
    (cfg.mode = ScanMode.exclusive → ∀ g, g < inputLen cfg →
      (run cfg sched).output g = some (seqFold cfg g)) ∧
    (cfg.mode = ScanMode.inclusive → ∀ g, g < inputLen cfg →
      (run cfg sched).output g = some (seqFold cfg (g + 1))) ∧
    (∀ g, inputLen cfg ≤ g → (run cfg sched).output g = none) ∧
    (cfg.mode = ScanMode.reduce → ∀ g, (run cfg sched).output g = none) ∧
    reduceResult cfg (run cfg sched) = seqFold cfg (inputLen cfg) := by
  obtain ⟨hV, hO⟩ := inv_run cfg hassoc hidr hts sched
  have hL := invLink_run cfg sched
  have hchain : ∀ j, j < numTiles cfg →
      ((run cfg sched).chain j).status = Status.GlobalReady ∧
      ((run cfg sched).chain j).value = seqFold cfg (tileBound cfg (j + 1)) := by
    intro j hj
    have hlink := hL j
    rw [hC j hj] at hlink
    have hst := (linkOK_done_iff _).mp hlink
    exact ⟨hst, (hV.2 j hj).2.1 hst⟩
  have hdone : ∀ g, g < inputLen cfg →
      (run cfg sched).machines (g / cfg.tileSize) = Phase.done := by
    intro g hg
    apply hC
    rw [Nat.div_lt_iff_lt_mul hts]
    exact lt_of_lt_of_le hg (inputLen_le_numTiles_mul cfg hts)
  refine ⟨hchain, ?_, ?_, hO.1, hO.2.1, ?_⟩
  · intro hmode g hg
    have hne : cfg.mode ≠ ScanMode.reduce := by rw [hmode]; intro h; nomatch h
    have := (hO.2.2 hne g hg).1 (hdone g hg)
    rw [this]
    unfold modeValue
    rw [hmode]
  · intro hmode g hg
    have hne : cfg.mode ≠ ScanMode.reduce := by rw [hmode]; intro h; nomatch h
    have := (hO.2.2 hne g hg).1 (hdone g hg)
    rw [this]
    unfold modeValue
    rw [hmode]
  · unfold reduceResult
    by_cases hT : numTiles cfg = 0
    · rw [if_pos hT]
      have hn : inputLen cfg = 0 := (numTiles_eq_zero_iff cfg hts).mp hT
      rw [hn, seqFold_zero]
    · rw [if_neg hT]
      have hj : numTiles cfg - 1 < numTiles cfg := by omega
      have := (hchain _ hj).2
      rw [this]
      have hsub : numTiles cfg - 1 + 1 = numTiles cfg := by omega
      rw [hsub, tileBound_numTiles cfg hts]

/-! ### The canonical schedule completes -/

theorem fupd_fupd {β : Type} (f : Nat → β) (i : Nat) (a b : β) :
    fupd (fupd f i a) i b = fupd f i b := by
  funext j
  by_cases h : j = i <;> simp [fupd, h]

/-- Three steps of a tile whose predecessors are all done move it from
`start` to `done` (its first lookback read already finds `GlobalReady`),
leaving every other machine untouched. -/
theorem advance_tile {α : Type} (cfg : Config α) (s : EngineState α)
    (m : Nat) (hmT : m < numTiles cfg) (hL : InvLink s)
    (hstart : s.machines m = Phase.start)
    (hprev : ∀ j, j < m → s.machines j = Phase.done) :
    (step cfg (step cfg (step cfg s m) m) m).machines =
      fupd s.machines m Phase.done := by
  have e1 : step cfg s m =
      { chain := fupd s.chain m ⟨Status.LocalReady, localReduce cfg m⟩
        machines := fupd s.machines m
          (if m = 0 then Phase.finish cfg.base
           else Phase.lookback (m - 1) cfg.identity)
        output := s.output } := by
    unfold step
    rw [if_pos hmT]
    exact stepTile_start cfg s m hstart
  by_cases h0 : m = 0
  · subst h0
    have hm1 : (step cfg s 0).machines 0 = Phase.finish cfg.base := by
      rw [e1]
      dsimp only
      rw [fupd_same, if_pos rfl]
    have e2 : step cfg (step cfg s 0) 0 =
        { chain := fupd (step cfg s 0).chain 0
            ⟨Status.GlobalReady, cfg.combine cfg.base (localReduce cfg 0)⟩
          machines := fupd (step cfg s 0).machines 0 Phase.done
          output := tileWrite cfg 0 cfg.base (step cfg s 0).output } := by
      unfold step
      rw [if_pos hmT]
      exact stepTile_finish cfg _ 0 cfg.base hm1
    have hm2 : (step cfg (step cfg s 0) 0).machines 0 = Phase.done := by
      rw [e2]
      dsimp only
      rw [fupd_same]
    have e3 : step cfg (step cfg (step cfg s 0) 0) 0 =
        step cfg (step cfg s 0) 0 := by
      unfold step
      rw [if_pos hmT]
      exact stepTile_done cfg _ 0 hm2
    rw [e3, e2]
    dsimp only
    rw [e1]
    dsimp only
    rw [fupd_fupd]
  · have hm1 : (step cfg s m).machines m =
        Phase.lookback (m - 1) cfg.identity := by
      rw [e1]
      dsimp only
      rw [fupd_same, if_neg h0]
    have hchain : ((step cfg s m).chain (m - 1)).status =
        Status.GlobalReady := by
      rw [e1]
      dsimp only
      rw [fupd_other _ _ _ (by omega : m - 1 ≠ m)]
      have hlink := hL (m - 1)
      rw [hprev (m - 1) (by omega)] at hlink
      exact (linkOK_done_iff _).mp hlink
    have e2 : step cfg (step cfg s m) m =
        { chain := (step cfg s m).chain
          machines := fupd (step cfg s m).machines m
            (lookbackNext cfg (step cfg s m) (m - 1) cfg.identity)
          output := (step cfg s m).output } := by
      unfold step
      rw [if_pos hmT]
      exact stepTile_lookback cfg _ m (m - 1) cfg.identity hm1
    have hm2 : (step cfg (step cfg s m) m).machines m =
        Phase.finish (cfg.combine ((step cfg s m).chain (m - 1)).value
          cfg.identity) := by
      rw [e2]
      dsimp only
      rw [fupd_same]
      exact lookbackNext_global cfg _ (m - 1) cfg.identity hchain
    have e3 : step cfg (step cfg (step cfg s m) m) m =
        { chain := fupd (step cfg (step cfg s m) m).chain m
            ⟨Status.GlobalReady,
              cfg.combine (cfg.combine ((step cfg s m).chain (m - 1)).value
                cfg.identity) (localReduce cfg m)⟩
          machines := fupd (step cfg (step cfg s m) m).machines m Phase.done
          output := tileWrite cfg m
            (cfg.combine ((step cfg s m).chain (m - 1)).value cfg.identity)
            (step cfg (step cfg s m) m).output } := by
      unfold step
      rw [if_pos hmT]
      exact stepTile_finish cfg _ m _ hm2
    rw [e3]
    dsimp only
    rw [e2]
    dsimp only
    rw [e1]
    dsimp only
    rw [fupd_fupd, fupd_fupd]

theorem tripleSched_spec {α : Type} (cfg : Config α) :
    ∀ m, m ≤ numTiles cfg →
      (∀ j, j < m → (run cfg (tripleSched m)).machines j = Phase.done) ∧
      (∀ j, m ≤ j → (run cfg (tripleSched m)).machines j = Phase.start) := by
  intro m
  induction m with
  | zero =>
    intro _
    exact ⟨fun j hj => absurd hj (by omega), fun j _ => rfl⟩
  | succ m ih =>
    intro hm
    obtain ⟨h1, h2⟩ := ih (by omega)
    have hmT : m < numTiles cfg := by omega
    have hL : InvLink (run cfg (tripleSched m)) :=
      invLink_run cfg (tripleSched m)
    have hrun : run cfg (tripleSched (m + 1)) =
        step cfg (step cfg (step cfg (run cfg (tripleSched m)) m) m) m := by
      show runFrom cfg (initState cfg) (tripleSched (m + 1)) = _
      have ht : tripleSched (m + 1) = tripleSched m ++ [m, m, m] := rfl
      rw [ht]
      unfold runFrom
      rw [List.foldl_append]
      rfl
    have hmach := advance_tile cfg (run cfg (tripleSched m)) m hmT hL
      (h2 m le_rfl) h1
    constructor
    · intro j hj
      rw [hrun, hmach]
      by_cases hje : j = m
      · subst hje
        rw [fupd_same]
      · rw [fupd_other _ _ _ hje]
        exact h1 j (by omega)
    · intro j hj
      rw [hrun, hmach, fupd_other _ _ _ (by omega : j ≠ m)]
      exact h2 j (by omega)

/-- The canonical in-order schedule completes the dispatch. -/
theorem canonical_completes {α : Type} (cfg : Config α) :
    Completed cfg (engineRun cfg) := by
  intro j hj
  exact ((tripleSched_spec cfg (numTiles cfg) le_rfl).1) j hj

/-- Specialization of the master theorem to the engine's canonical run. -/
theorem engine_canonical_correct {α : Type} (cfg : Config α)
    (hassoc : ∀ a b c,
      cfg.combine (cfg.combine a b) c = cfg.combine a (cfg.combine b c))
    (hidr : ∀ a, cfg.combine a cfg.identity = a)
    (hts : 0 < cfg.tileSize) :
    (cfg.mode = ScanMode.exclusive → ∀ g, g < inputLen cfg →
      engineOutput cfg g = some (seqFold cfg g)) ∧
    (cfg.mode = ScanMode.inclusive → ∀ g, g < inputLen cfg →
      engineOutput cfg g = some (seqFold cfg (g + 1))) ∧
    (∀ g, inputLen cfg ≤ g → engineOutput cfg g = none) ∧
    (cfg.mode = ScanMode.reduce → ∀ g, engineOutput cfg g = none) ∧
    engineReduce cfg = seqFold cfg (inputLen cfg) ∧
    (∀ j, j < numTiles cfg →
      ((engineRun cfg).chain j).status = Status.GlobalReady ∧
      ((engineRun cfg).chain j).value = seqFold cfg (tileBound cfg (j + 1))) := by
  have hmaster := run_completed_correct cfg hassoc hidr hts
    (canonicalSched cfg) (canonical_completes cfg)
  exact ⟨hmaster.2.1, hmaster.2.2.1, hmaster.2.2.2.1, hmaster.2.2.2.2.1,
    hmaster.2.2.2.2.2, hmaster.1⟩

/-- One sequential step of the reference fold. -/
theorem seqFold_succ {α : Type} (cfg : Config α) (g : Nat)
    (hg : g < inputLen cfg) :
    seqFold cfg (g + 1) = cfg.combine (seqFold cfg g) (readInput cfg g) := by
  unfold seqFold readInput
  rw [List.take_succ, List.foldl_append]
  cases hx : cfg.input[g]? with
  | none =>
    rw [List.getElem?_eq_none_iff] at hx
    exact absurd hx (by unfold inputLen at hg; omega)
  | some x =>
    have hd : cfg.input.getD g cfg.identity = x := by
      rw [List.getD_eq_getD_get? cfg.input cfg.identity g,
        List.get?_eq_getElem?, hx]
      rfl
    rw [hd]
    rfl

/-- An ordinary dispatch configuration: the exclusive base is the
monoid identity (spec section 4.3: the implicit predecessor of tile 0 is
`GlobalReady` with value `identity`). -/
def mkScanConfig {α : Type} (combine : α → α → α) (identity : α) (ts : Nat)
    (mode : ScanMode) (input : List α) : Config α :=
  ⟨combine, identity, ts, mode, identity, input⟩

/-- The u32 add-monoid dispatch of the spec's concrete scenario:
`tileSize = 2`, input `[1,2,3,4,5,6,7,8]`, over `Fin (2 ^ 32)` (exact
32-bit wraparound addition). -/
def u32AddScanConfig (mode : ScanMode) : Config (Fin (2 ^ 32)) :=
  mkScanConfig (· + ·) 0 2 mode [1, 2, 3, 4, 5, 6, 7, 8]

/-- C1: for every input length, every associative operator with
identity, and every input, the engine's outputs satisfy the scan
recurrences — `exclusive[0] = identity`;
`exclusive[i] = op (exclusive[i-1]) x[i-1]` for `i > 0`;
`inclusive[i] = op (exclusive[i]) x[i]`; and the reduce result equals
`inclusive[n-1]` (identity when `n = 0`) — and in particular the
add-monoid u32 dispatch with `tileSize = 2` on `[1,2,3,4,5,6,7,8]`
yields exclusive `[0,1,3,6,10,15,21,28]`, inclusive
`[1,3,6,10,15,21,28,36]`, and reduce `36`. -/
theorem C1_scan_correctness :
    (∀ (α : Type) (combine : α → α → α) (identity : α) (ts : Nat)
        (input : List α),
      (∀ a b c, combine (combine a b) c = combine a (combine b c)) →
      (∀ a, combine identity a = a) →
      (∀ a, combine a identity = a) →
      0 < ts →
      (0 < input.length →
        engineOutput (mkScanConfig combine identity ts ScanMode.exclusive
          input) 0 = some identity) ∧
      (∀ k v, k + 1 < input.length →
        engineOutput (mkScanConfig combine identity ts ScanMode.exclusive
          input) k = some v →
        engineOutput (mkScanConfig combine identity ts ScanMode.exclusive
          input) (k + 1) = some (combine v (input.getD k identity))) ∧
      (∀ k v, k < input.length →
        engineOutput (mkScanConfig combine identity ts ScanMode.exclusive
          input) k = some v →
        engineOutput (mkScanConfig combine identity ts ScanMode.inclusive
          input) k = some (combine v (input.getD k identity))) ∧
      (∀ v, 0 < input.length →
        engineOutput (mkScanConfig combine identity ts ScanMode.inclusive
          input) (input.length - 1) = some v →
        engineReduce (mkScanConfig combine identity ts ScanMode.reduce
          input) = v) ∧
      (input.length = 0 →
        engineReduce (mkScanConfig combine identity ts ScanMode.reduce
          input) = identity)) ∧
    ((List.range 8).map (engineOutput (u32AddScanConfig ScanMode.exclusive)) =
      [some 0, some 1, some 3, some 6, some 10, some 15, some 21,
        some 28]) ∧
    ((List.range 8).map (engineOutput (u32AddScanConfig ScanMode.inclusive)) =
      [some 1, some 3, some 6, some 10, some 15, some 21, some 28,
        some 36]) ∧
    engineReduce (u32AddScanConfig ScanMode.reduce) = 36 := by
  refine ⟨?_, by decide, by decide, by decide⟩
  intro α combine identity ts input hassoc hidl hidr hts
  have hE := engine_canonical_correct
    (mkScanConfig combine identity ts ScanMode.exclusive input)
    hassoc hidr hts
  have hI := engine_canonical_correct
    (mkScanConfig combine identity ts ScanMode.inclusive input)
    hassoc hidr hts
  have hR := engine_canonical_correct
    (mkScanConfig combine identity ts ScanMode.reduce input)
    hassoc hidr hts
  have hlenE : inputLen (mkScanConfig combine identity ts
      ScanMode.exclusive input) = input.length := rfl
  have hlenI : inputLen (mkScanConfig combine identity ts
      ScanMode.inclusive input) = input.length := rfl
  refine ⟨?_, ?_, ?_, ?_, ?_⟩
  · intro hn
    exact hE.1 rfl 0 hn
  · intro k v hk hv
    have h1 := hE.1 rfl k (by omega)
    have h2 := hE.1 rfl (k + 1) hk
    rw [h1] at hv
    injection hv with hv'
    rw [h2, seqFold_succ _ k (by rw [hlenE]; omega : k < inputLen
      (mkScanConfig combine identity ts ScanMode.exclusive input)), hv']
    rfl
  · intro k v hk hv
    have h1 := hE.1 rfl k hk
    have h2 := hI.2.1 rfl k hk
    rw [h1] at hv
    injection hv with hv'
    rw [h2, seqFold_succ _ k (by rw [hlenI]; omega : k < inputLen
      (mkScanConfig combine identity ts ScanMode.inclusive input))]
    show some (combine (seqFold (mkScanConfig combine identity ts
      ScanMode.exclusive input) k) (input.getD k identity)) = _
    rw [hv']
  · intro v hn hv
    have h2 := hI.2.1 rfl (input.length - 1) (by omega)
    rw [h2] at hv
    injection hv with hv'
    have h3 := hR.2.2.2.2.1
    rw [h3]
    show seqFold (mkScanConfig combine identity ts ScanMode.inclusive input)
      input.length = v
    rw [show input.length = input.length - 1 + 1 from by omega, hv']
  · intro hn
    have h3 := hR.2.2.2.2.1
    rw [h3]
    show seqFold (mkScanConfig combine identity ts ScanMode.reduce input)
      input.length = identity
    rw [hn]
    rfl

/-- Witness for C1's general part at the concrete u32 add dispatch. -/
theorem C1_scan_correctness_witness :
    engineOutput (mkScanConfig (· + ·) (0 : Fin (2 ^ 32)) 2
      ScanMode.exclusive [1, 2, 3, 4, 5, 6, 7, 8]) 0 = some 0 :=
  (C1_scan_correctness.1 (Fin (2 ^ 32)) (· + ·) 0 2 [1, 2, 3, 4, 5, 6, 7, 8]
    (fun a b c => add_assoc a b c) (fun a => zero_add a)
    (fun a => add_zero a) (by norm_num)).1 (by decide)

/-! ### Lookback termination -/

/-- Repeatedly stepping only tile `i` from a lookback state reaches
TileFinisher within `cursor + 1` iterations, whatever the CarryChain
holds — no iteration waits for another workgroup. -/
theorem lookback_bounded {α : Type} (cfg : Config α) (i : Nat)
    (hi : i < numTiles cfg) :
    ∀ cursor (s : EngineState α) (acc : α),
      s.machines i = Phase.lookback cursor acc →
      ∃ m, m ≤ cursor + 1 ∧
        ∃ a, ((fun t => step cfg t i)^[m] s).machines i = Phase.finish a := by
  intro cursor
  induction cursor using Nat.strong_induction_on with
  | _ cursor ih =>
    intro s acc hm
    have hstep : step cfg s i =
        { chain := s.chain
          machines := fupd s.machines i (lookbackNext cfg s cursor acc)
          output := s.output } := by
      unfold step
      rw [if_pos hi]
      exact stepTile_lookback cfg s i cursor acc hm
    rcases lookbackNext_cases cfg s cursor acc with ⟨a, ha⟩ | ⟨hpos, a, ha⟩
    · refine ⟨1, by omega, a, ?_⟩
      rw [Function.iterate_one, hstep]
      dsimp only
      rw [fupd_same, ha]
    · have hm1 : (step cfg s i).machines i =
          Phase.lookback (cursor - 1) a := by
        rw [hstep]
        dsimp only
        rw [fupd_same, ha]
      obtain ⟨m, hmle, a', hfin⟩ :=
        ih (cursor - 1) (by omega) (step cfg s i) a hm1
      refine ⟨m + 1, by omega, a', ?_⟩
      rw [Function.iterate_succ_apply]
      exact hfin

/-- C2: for every tile `tileId`, once the tile enters the
LookbackProtocol it terminates after at most `tileId` iterations of the
cursor-decrement loop, and no branch of the loop ever blocks waiting on
another workgroup's CarryChain write: from any lookback state — whatever
the other slots hold — a step either terminates the loop into
TileFinisher or strictly decrements the cursor, an `Invalid` slot being
resolved by the local FallbackProtocol recomputation rather than by
spinning. -/
theorem C2_lookback_termination {α : Type} (cfg : Config α) (i : Nat)
    (hi : i < numTiles cfg) (s : EngineState α)
    (hstart : s.machines i = Phase.start) :
    (∃ m, m ≤ i ∧ ∃ a,
      ((fun t => step cfg t i)^[m] (step cfg s i)).machines i =
        Phase.finish a) ∧
    (∀ (t : EngineState α) cursor acc,
      t.machines i = Phase.lookback cursor acc →
      (∃ a, (step cfg t i).machines i = Phase.finish a) ∨
      (0 < cursor ∧ ∃ a, (step cfg t i).machines i =
        Phase.lookback (cursor - 1) a)) := by
  constructor
  · have hstep : step cfg s i =
        { chain := fupd s.chain i ⟨Status.LocalReady, localReduce cfg i⟩
          machines := fupd s.machines i
            (if i = 0 then Phase.finish cfg.base
             else Phase.lookback (i - 1) cfg.identity)
          output := s.output } := by
      unfold step
      rw [if_pos hi]
      exact stepTile_start cfg s i hstart
    by_cases h0 : i = 0
    · refine ⟨0, by omega, cfg.base, ?_⟩
      rw [Function.iterate_zero_apply, hstep]
      dsimp only
      rw [fupd_same, if_pos h0]
    · have hm1 : (step cfg s i).machines i =
          Phase.lookback (i - 1) cfg.identity := by
        rw [hstep]
        dsimp only
        rw [fupd_same, if_neg h0]
      obtain ⟨m, hmle, a, hfin⟩ :=
        lookback_bounded cfg i hi (i - 1) (step cfg s i) cfg.identity hm1
      exact ⟨m, by omega, a, hfin⟩
  · intro t cursor acc hm
    have hstep : step cfg t i =
        { chain := t.chain
          machines := fupd t.machines i (lookbackNext cfg t cursor acc)
          output := t.output } := by
      unfold step
      rw [if_pos hi]
      exact stepTile_lookback cfg t i cursor acc hm
    rcases lookbackNext_cases cfg t cursor acc with ⟨a, ha⟩ | ⟨hpos, a, ha⟩
    · refine Or.inl ⟨a, ?_⟩
      rw [hstep]
      dsimp only
      rw [fupd_same, ha]
    · refine Or.inr ⟨hpos, a, ?_⟩
      rw [hstep]
      dsimp only
      rw [fupd_same, ha]

/-- Witness for C2 at tile 2 of the concrete u32 add dispatch. -/
theorem C2_lookback_termination_witness :
    2 < numTiles (u32AddScanConfig ScanMode.exclusive) ∧
    (initState (u32AddScanConfig ScanMode.exclusive)).machines 2 =
      Phase.start ∧
    (∃ m, m ≤ 2 ∧ ∃ a,
      ((fun t => step (u32AddScanConfig ScanMode.exclusive) t 2)^[m]
        (step (u32AddScanConfig ScanMode.exclusive)
          (initState (u32AddScanConfig ScanMode.exclusive)) 2)).machines 2 =
        Phase.finish a) :=
  ⟨by decide, rfl,
    (C2_lookback_termination (u32AddScanConfig ScanMode.exclusive) 2
      (by decide) (initState (u32AddScanConfig ScanMode.exclusive)) rfl).1⟩

/-! ### CarryChain status monotonicity -/

/-- Position of a status in the `Invalid → LocalReady → GlobalReady`
progression. -/
def statusRank : Status → Nat
  | Status.Invalid => 0
  | Status.LocalReady => 1
  | Status.GlobalReady => 2

theorem chain_step_monotonic {α : Type} (cfg : Config α)
    (s : EngineState α) (hL : InvLink s) (i j : Nat) :
    statusRank ((s.chain j).status) ≤
      statusRank (((step cfg s i).chain j).status) ∧
    ((s.chain j).status = Status.GlobalReady →
      (step cfg s i).chain j = s.chain j) := by
  unfold step
  by_cases hi : i < numTiles cfg
  · rw [if_pos hi]
    match hm : s.machines i with
    | Phase.start =>
      rw [stepTile_start cfg s i hm]
      dsimp only
      by_cases hj : j = i
      · subst hj
        have hlink := hL j
        rw [hm] at hlink
        have hst := (linkOK_start_iff _).mp hlink
        rw [fupd_same, hst]
        exact ⟨by simp [statusRank], fun hc => nomatch hc⟩
      · rw [fupd_other _ _ _ hj]
        exact ⟨le_rfl, fun _ => rfl⟩
    | Phase.lookback cursor acc =>
      rw [stepTile_lookback cfg s i cursor acc hm]
      exact ⟨le_rfl, fun _ => rfl⟩
    | Phase.finish acc =>
      rw [stepTile_finish cfg s i acc hm]
      dsimp only
      by_cases hj : j = i
      · subst hj
        have hlink := hL j
        rw [hm] at hlink
        have hst := (linkOK_finish_iff _ _).mp hlink
        rw [fupd_same, hst]
        exact ⟨by simp [statusRank], fun hc => nomatch hc⟩
      · rw [fupd_other _ _ _ hj]
        exact ⟨le_rfl, fun _ => rfl⟩
    | Phase.done =>
      rw [stepTile_done cfg s i hm]
      exact ⟨le_rfl, fun _ => rfl⟩
  · rw [if_neg hi]
    exact ⟨le_rfl, fun _ => rfl⟩

theorem chain_runFrom_preserved {α : Type} (cfg : Config α) :
    ∀ (sched2 : List Nat) (s : EngineState α), InvLink s →
      ∀ j, (s.chain j).status = Status.GlobalReady →
        (runFrom cfg s sched2).chain j = s.chain j := by
  intro sched2
  induction sched2 with
  | nil => intro s _ j _; rfl
  | cons x rest ih =>
    intro s hL j hGR
    have hpres := (chain_step_monotonic cfg s hL x j).2 hGR
    have hL2 := invLink_step cfg s x hL
    have hrest := ih (step cfg s x) hL2 j (by rw [hpres]; exact hGR)
    show (runFrom cfg (step cfg s x) rest).chain j = s.chain j
    rw [hrest, hpres]

/-- C3: in every reachable state of a dispatch, every CarryChain slot's
status only ever advances along `Invalid → LocalReady → GlobalReady`
(never backward) under any next step, and once a slot is `GlobalReady`
the whole slot — its value field included — is never written again for
the remainder of the dispatch, under any continuation schedule. -/
theorem C3_carrychain_monotonic {α : Type} (cfg : Config α)
    (sched : List Nat) (i j : Nat) :
    statusRank (((run cfg sched).chain j).status) ≤
      statusRank (((step cfg (run cfg sched) i).chain j).status) ∧
    (((run cfg sched).chain j).status = Status.GlobalReady →
      ∀ sched2, (runFrom cfg (run cfg sched) sched2).chain j =
        (run cfg sched).chain j) := by
  have hL := invLink_run cfg sched
  exact ⟨(chain_step_monotonic cfg _ hL i j).1,
    fun hGR sched2 => chain_runFrom_preserved cfg sched2 _ hL j hGR⟩

/-- Witness for C3: after the canonical run of the concrete u32 add
dispatch, slot 0 is `GlobalReady` and survives further steps unchanged. -/
theorem C3_carrychain_monotonic_witness :
    ((run (u32AddScanConfig ScanMode.exclusive)
      (canonicalSched (u32AddScanConfig ScanMode.exclusive))).chain 0).status =
        Status.GlobalReady ∧
    (runFrom (u32AddScanConfig ScanMode.exclusive)
      (run (u32AddScanConfig ScanMode.exclusive)
        (canonicalSched (u32AddScanConfig ScanMode.exclusive))) [1, 2, 3]).chain 0 =
      (run (u32AddScanConfig ScanMode.exclusive)
        (canonicalSched (u32AddScanConfig ScanMode.exclusive))).chain 0 :=
  ⟨by decide,
    (C3_carrychain_monotonic (u32AddScanConfig ScanMode.exclusive)
      (canonicalSched (u32AddScanConfig ScanMode.exclusive)) 0 0).2
      (by decide) [1, 2, 3]⟩

/-! ### Fallback frame conditions and schedule-independence -/

/-- C4: FallbackProtocol for a tile `j` whose CarryChain entry is
`Invalid` reads only tile `j`'s original immutable input slice and
returns exactly tile `j`'s local reduction; the lookback step that
invokes it writes nothing to the CarryChain or the output buffer — only
the stalled machine's own registers change — and any completed run,
including one in which tile `j`'s LocalReady publish is delayed so that
every later tile falls back for `j`, produces output identical to the
unhindered canonical run. -/
theorem C4_fallback_frame {α : Type} (cfg : Config α)
    (hassoc : ∀ a b c,
      cfg.combine (cfg.combine a b) c = cfg.combine a (cfg.combine b c))
    (hidr : ∀ a, cfg.combine a cfg.identity = a)
    (hts : 0 < cfg.tileSize) :
    (∀ j, fallbackProtocol cfg j =
        (tileSlice cfg j).foldl cfg.combine cfg.identity ∧
      fallbackProtocol cfg j = localReduce cfg j) ∧
    (∀ (s : EngineState α) i cursor acc, i < numTiles cfg →
      s.machines i = Phase.lookback cursor acc →
      (step cfg s i).chain = s.chain ∧
      (step cfg s i).output = s.output ∧
      ((s.chain cursor).status = Status.Invalid → cursor ≠ 0 →
        (step cfg s i).machines i = Phase.lookback (cursor - 1)
          (cfg.combine (fallbackProtocol cfg cursor) acc)) ∧
      ((s.chain cursor).status = Status.Invalid → cursor = 0 →
        (step cfg s i).machines i = Phase.finish (cfg.combine cfg.base
          (cfg.combine (fallbackProtocol cfg cursor) acc)))) ∧
    (∀ sched, Completed cfg (run cfg sched) →
      (∀ g, (run cfg sched).output g = engineOutput cfg g) ∧
      reduceResult cfg (run cfg sched) = engineReduce cfg) := by
  refine ⟨fun j => ⟨rfl, rfl⟩, ?_, ?_⟩
  · intro s i cursor acc hi hm
    have hstep : step cfg s i =
        { chain := s.chain
          machines := fupd s.machines i (lookbackNext cfg s cursor acc)
          output := s.output } := by
      unfold step
      rw [if_pos hi]
      exact stepTile_lookback cfg s i cursor acc hm
    refine ⟨by rw [hstep], by rw [hstep], ?_, ?_⟩
    · intro hst h0
      rw [hstep]
      dsimp only
      rw [fupd_same]
      exact lookbackNext_invalid_cont cfg s cursor acc hst h0
    · intro hst h0
      rw [hstep]
      dsimp only
      rw [fupd_same]
      exact lookbackNext_invalid_stop cfg s cursor acc hst h0
  · intro sched hC
    have hrun := run_completed_correct cfg hassoc hidr hts sched hC
    have hcan := run_completed_correct cfg hassoc hidr hts
      (canonicalSched cfg) (canonical_completes cfg)
    constructor
    · intro g
      show (run cfg sched).output g =
        (run cfg (canonicalSched cfg)).output g
      by_cases hg : g < inputLen cfg
      · cases hmode : cfg.mode with
        | exclusive =>
          rw [hrun.2.1 hmode g hg, hcan.2.1 hmode g hg]
        | inclusive =>
          rw [hrun.2.2.1 hmode g hg, hcan.2.2.1 hmode g hg]
        | reduce =>
          rw [hrun.2.2.2.2.1 hmode g, hcan.2.2.2.2.1 hmode g]
      · rw [hrun.2.2.2.1 g (by omega), hcan.2.2.2.1 g (by omega)]
    · show reduceResult cfg (run cfg sched) =
        reduceResult cfg (run cfg (canonicalSched cfg))
      rw [hrun.2.2.2.2.2, hcan.2.2.2.2.2]

/-- Witness for C4 on the concrete u32 add dispatch with a schedule that
delays tile 1's publish until the very end, forcing tiles 2 and 3 to
fall back for tile 1; the run completes and its output is identical to
the canonical run's. -/
theorem C4_fallback_frame_witness :
    Completed (u32AddScanConfig ScanMode.inclusive)
      (run (u32AddScanConfig ScanMode.inclusive)
        [0, 0, 0, 2, 3, 3, 3, 3, 3, 3, 2, 2, 2, 2, 1, 1, 1]) ∧
    (∀ g, (run (u32AddScanConfig ScanMode.inclusive)
        [0, 0, 0, 2, 3, 3, 3, 3, 3, 3, 2, 2, 2, 2, 1, 1, 1]).output g =
      engineOutput (u32AddScanConfig ScanMode.inclusive) g) ∧
    reduceResult (u32AddScanConfig ScanMode.inclusive)
        (run (u32AddScanConfig ScanMode.inclusive)
          [0, 0, 0, 2, 3, 3, 3, 3, 3, 3, 2, 2, 2, 2, 1, 1, 1]) =
      engineReduce (u32AddScanConfig ScanMode.inclusive) := by
  have hC : Completed (u32AddScanConfig ScanMode.inclusive)
      (run (u32AddScanConfig ScanMode.inclusive)
        [0, 0, 0, 2, 3, 3, 3, 3, 3, 3, 2, 2, 2, 2, 1, 1, 1]) := by
    intro j hj
    have hT : numTiles (u32AddScanConfig ScanMode.inclusive) = 4 := by decide
    rw [hT] at hj
    interval_cases j <;> decide
  have := (C4_fallback_frame (u32AddScanConfig ScanMode.inclusive)
    (fun a b c => add_assoc a b c) (fun a => add_zero a) (by decide)).2.2
    [0, 0, 0, 2, 3, 3, 3, 3, 3, 3, 2, 2, 2, 2, 1, 1, 1] hC
  exact ⟨hC, this.1, this.2⟩

/-! ### Determinism -/

/-- C5: two executions of the engine on identical input produce
identical output whatever order the workgroups were scheduled in — any
two completed runs have equal output buffers and equal reduce results —
and in every completed run each tile's final `GlobalReady` value equals
the strictly sequential left-to-right fold of all input elements up to
and including that tile. -/
theorem C5_determinism {α : Type} (cfg : Config α)
    (hassoc : ∀ a b c,
      cfg.combine (cfg.combine a b) c = cfg.combine a (cfg.combine b c))
    (hidr : ∀ a, cfg.combine a cfg.identity = a)
    (hts : 0 < cfg.tileSize) (hbase : cfg.base = cfg.identity)
    (sched1 sched2 : List Nat)
    (h1 : Completed cfg (run cfg sched1))
    (h2 : Completed cfg (run cfg sched2)) :
    (∀ g, (run cfg sched1).output g = (run cfg sched2).output g) ∧
    reduceResult cfg (run cfg sched1) =
      reduceResult cfg (run cfg sched2) ∧
    (∀ j, j < numTiles cfg →
      ((run cfg sched1).chain j).status = Status.GlobalReady ∧
      ((run cfg sched1).chain j).value =
        (cfg.input.take (tileBound cfg (j + 1))).foldl cfg.combine
          cfg.identity) := by
  have hr1 := run_completed_correct cfg hassoc hidr hts sched1 h1
  have hr2 := run_completed_correct cfg hassoc hidr hts sched2 h2
  refine ⟨?_, ?_, ?_⟩
  · intro g
    by_cases hg : g < inputLen cfg
    · cases hmode : cfg.mode with
      | exclusive => rw [hr1.2.1 hmode g hg, hr2.2.1 hmode g hg]
      | inclusive => rw [hr1.2.2.1 hmode g hg, hr2.2.2.1 hmode g hg]
      | reduce => rw [hr1.2.2.2.2.1 hmode g, hr2.2.2.2.2.1 hmode g]
    · rw [hr1.2.2.2.1 g (by omega), hr2.2.2.2.1 g (by omega)]
  · rw [hr1.2.2.2.2.2, hr2.2.2.2.2.2]
  · intro j hj
    refine ⟨(hr1.1 j hj).1, ?_⟩
    rw [(hr1.1 j hj).2]
    unfold seqFold
    rw [hbase]

/-- Witness for C5: the canonical schedule and the delayed schedule of
the C4 witness both complete the concrete u32 add dispatch, with equal
outputs. -/
theorem C5_determinism_witness :
    Completed (u32AddScanConfig ScanMode.inclusive)
      (run (u32AddScanConfig ScanMode.inclusive)
        (canonicalSched (u32AddScanConfig ScanMode.inclusive))) ∧
    Completed (u32AddScanConfig ScanMode.inclusive)
      (run (u32AddScanConfig ScanMode.inclusive)
        [0, 0, 0, 2, 3, 3, 3, 3, 3, 3, 2, 2, 2, 2, 1, 1, 1]) ∧
    (∀ g, (run (u32AddScanConfig ScanMode.inclusive)
        (canonicalSched (u32AddScanConfig ScanMode.inclusive))).output g =
      (run (u32AddScanConfig ScanMode.inclusive)
        [0, 0, 0, 2, 3, 3, 3, 3, 3, 3, 2, 2, 2, 2, 1, 1, 1]).output g) := by
  have hT : numTiles (u32AddScanConfig ScanMode.inclusive) = 4 := by decide
  have hC1 : Completed (u32AddScanConfig ScanMode.inclusive)
      (run (u32AddScanConfig ScanMode.inclusive)
        (canonicalSched (u32AddScanConfig ScanMode.inclusive))) := by
    intro j hj
    rw [hT] at hj
    interval_cases j <;> decide
  have hC2 : Completed (u32AddScanConfig ScanMode.inclusive)
      (run (u32AddScanConfig ScanMode.inclusive)
        [0, 0, 0, 2, 3, 3, 3, 3, 3, 3, 2, 2, 2, 2, 1, 1, 1]) := by
    intro j hj
    rw [hT] at hj
    interval_cases j <;> decide
  exact ⟨hC1, hC2,
    (C5_determinism (u32AddScanConfig ScanMode.inclusive)
      (fun a b c => add_assoc a b c) (fun a => add_zero a) (by decide)
      rfl _ _ hC1 hC2).1⟩

/-! ### The splitting law -/

/-- C6: for every input, associative operator with identity, and split
point `k ≤ n`, scanning `x[0..n)` as one dispatch yields the same
output as scanning `x[0..k)` and then scanning `x[k..n)` as a dispatch
whose exclusive base is seeded with the reduce of `x[0..k)`: the first
`k` outputs agree with the first dispatch's outputs, the remaining
outputs agree with the seeded dispatch's outputs, and the reduce of the
whole equals the reduce of the seeded second dispatch. -/
theorem C6_splitting_law :
    ∀ (α : Type) (combine : α → α → α) (identity : α) (ts : Nat)
      (input : List α) (k : Nat),
    (∀ a b c, combine (combine a b) c = combine a (combine b c)) →
    (∀ a, combine identity a = a) →
    (∀ a, combine a identity = a) →
    0 < ts → k ≤ input.length →
    (∀ g, g < k →
      engineOutput (mkScanConfig combine identity ts ScanMode.exclusive
        input) g =
      engineOutput (mkScanConfig combine identity ts ScanMode.exclusive
        (input.take k)) g) ∧
    (∀ g,
      engineOutput (mkScanConfig combine identity ts ScanMode.exclusive
        input) (k + g) =
      engineOutput (⟨combine, identity, ts, ScanMode.exclusive,
        engineReduce (mkScanConfig combine identity ts ScanMode.reduce
          (input.take k)), input.drop k⟩ : Config α) g) ∧
    (∀ g, g < k →
      engineOutput (mkScanConfig combine identity ts ScanMode.inclusive
        input) g =
      engineOutput (mkScanConfig combine identity ts ScanMode.inclusive
        (input.take k)) g) ∧
    (∀ g,
      engineOutput (mkScanConfig combine identity ts ScanMode.inclusive
        input) (k + g) =
      engineOutput (⟨combine, identity, ts, ScanMode.inclusive,
        engineReduce (mkScanConfig combine identity ts ScanMode.reduce
          (input.take k)), input.drop k⟩ : Config α) g) ∧
    engineReduce (mkScanConfig combine identity ts ScanMode.reduce input) =
      engineReduce (⟨combine, identity, ts, ScanMode.reduce,
        engineReduce (mkScanConfig combine identity ts ScanMode.reduce
          (input.take k)), input.drop k⟩ : Config α) := by
  intro α combine identity ts input k hassoc hidl hidr hts hk
  have hFE := engine_canonical_correct
    (mkScanConfig combine identity ts ScanMode.exclusive input)
    hassoc hidr hts
  have hFI := engine_canonical_correct
    (mkScanConfig combine identity ts ScanMode.inclusive input)
    hassoc hidr hts
  have hFR := engine_canonical_correct
    (mkScanConfig combine identity ts ScanMode.reduce input)
    hassoc hidr hts
  have h1E := engine_canonical_correct
    (mkScanConfig combine identity ts ScanMode.exclusive (input.take k))
    hassoc hidr hts
  have h1I := engine_canonical_correct
    (mkScanConfig combine identity ts ScanMode.inclusive (input.take k))
    hassoc hidr hts
  have h1R := engine_canonical_correct
    (mkScanConfig combine identity ts ScanMode.reduce (input.take k))
    hassoc hidr hts
  have hSE := engine_canonical_correct
    (⟨combine, identity, ts, ScanMode.exclusive,
      engineReduce (mkScanConfig combine identity ts ScanMode.reduce
        (input.take k)), input.drop k⟩ : Config α) hassoc hidr hts
  have hSI := engine_canonical_correct
    (⟨combine, identity, ts, ScanMode.inclusive,
      engineReduce (mkScanConfig combine identity ts ScanMode.reduce
        (input.take k)), input.drop k⟩ : Config α) hassoc hidr hts
  have hSR := engine_canonical_correct
    (⟨combine, identity, ts, ScanMode.reduce,
      engineReduce (mkScanConfig combine identity ts ScanMode.reduce
        (input.take k)), input.drop k⟩ : Config α) hassoc hidr hts
  have hlen1 : inputLen (mkScanConfig combine identity ts ScanMode.reduce
      (input.take k)) = k := by
    show (input.take k).length = k
    rw [List.length_take]
    omega
  have hlenS : (input.drop k).length = input.length - k :=
    List.length_drop k input
  have hbase2 : engineReduce (mkScanConfig combine identity ts
      ScanMode.reduce (input.take k)) =
      seqFold (mkScanConfig combine identity ts ScanMode.exclusive input)
        k := by
    rw [h1R.2.2.2.2.1]
    show ((input.take k).take ((input.take k).length)).foldl combine
      identity = (input.take k).foldl combine identity
    rw [List.take_length]
  have hS : ∀ (m : ScanMode) (g : Nat),
      seqFold (⟨combine, identity, ts, m,
        engineReduce (mkScanConfig combine identity ts ScanMode.reduce
          (input.take k)), input.drop k⟩ : Config α) g =
      seqFold (mkScanConfig combine identity ts ScanMode.exclusive input)
        (k + g) := by
    intro m g
    show ((input.drop k).take g).foldl combine
      (engineReduce (mkScanConfig combine identity ts ScanMode.reduce
        (input.take k))) = _
    rw [hbase2]
    exact (seqFold_split (mkScanConfig combine identity ts
      ScanMode.exclusive input) k g).symm
  have htake : ∀ g, g ≤ k →
      seqFold (mkScanConfig combine identity ts ScanMode.exclusive input)
        g =
      seqFold (mkScanConfig combine identity ts ScanMode.exclusive
        (input.take k)) g := by
    intro g hg
    show (input.take g).foldl combine identity =
      ((input.take k).take g).foldl combine identity
    rw [List.take_take, min_eq_left hg]
  refine ⟨?_, ?_, ?_, ?_, ?_⟩
  · intro g hg
    rw [hFE.1 rfl g (show g < input.length by omega),
      h1E.1 rfl g (show g < (input.take k).length by
        rw [List.length_take]; omega),
      htake g (by omega)]
  · intro g
    by_cases hg : k + g < input.length
    · rw [hFE.1 rfl (k + g) hg,
        hSE.1 rfl g (show g < (input.drop k).length by
          rw [hlenS]; omega),
        hS ScanMode.exclusive g]
    · rw [hFE.2.2.1 (k + g) (show input.length ≤ k + g by omega),
        hSE.2.2.1 g (show (input.drop k).length ≤ g by
          rw [hlenS]; omega)]
  · intro g hg
    rw [hFI.2.1 rfl g (show g < input.length by omega),
      h1I.2.1 rfl g (show g < (input.take k).length by
        rw [List.length_take]; omega)]
    show some ((input.take (g + 1)).foldl combine identity) =
      some (((input.take k).take (g + 1)).foldl combine identity)
    rw [List.take_take, min_eq_left (show g + 1 ≤ k by omega)]
  · intro g
    by_cases hg : k + g < input.length
    · rw [hFI.2.1 rfl (k + g) hg,
        hSI.2.1 rfl g (show g < (input.drop k).length by
          rw [hlenS]; omega)]
      have := hS ScanMode.inclusive (g + 1)
      rw [this]
      show some (seqFold (mkScanConfig combine identity ts
        ScanMode.inclusive input) (k + g + 1)) = _
      rw [show k + g + 1 = k + (g + 1) from by omega]
      rfl
    · rw [hFI.2.2.1 (k + g) (show input.length ≤ k + g by omega),
        hSI.2.2.1 g (show (input.drop k).length ≤ g by
          rw [hlenS]; omega)]
  · rw [hFR.2.2.2.2.1, hSR.2.2.2.2.1]
    show seqFold (mkScanConfig combine identity ts ScanMode.reduce input)
        input.length =
      seqFold (⟨combine, identity, ts, ScanMode.reduce,
        engineReduce (mkScanConfig combine identity ts ScanMode.reduce
          (input.take k)), input.drop k⟩ : Config α)
        (input.drop k).length
    rw [hlenS, hS ScanMode.reduce (input.length - k),
      show k + (input.length - k) = input.length from by omega]
    rfl

/-- Witness for C6 at the concrete u32 add dispatch with split point 3. -/
theorem C6_splitting_law_witness :
    engineReduce (mkScanConfig (· + ·) (0 : Fin (2 ^ 32)) 2 ScanMode.reduce
      [1, 2, 3, 4, 5, 6, 7, 8]) =
    engineReduce (⟨(· + ·), 0, 2, ScanMode.reduce,
      engineReduce (mkScanConfig (· + ·) (0 : Fin (2 ^ 32)) 2
        ScanMode.reduce (([1, 2, 3, 4, 5, 6, 7, 8] :
          List (Fin (2 ^ 32))).take 3)),
      ([1, 2, 3, 4, 5, 6, 7, 8] : List (Fin (2 ^ 32))).drop 3⟩ :
        Config (Fin (2 ^ 32))) :=
  (C6_splitting_law (Fin (2 ^ 32)) (· + ·) 0 2 [1, 2, 3, 4, 5, 6, 7, 8] 3
    (fun a b c => add_assoc a b c) (fun a => zero_add a)
    (fun a => add_zero a) (by norm_num) (by norm_num)).2.2.2.2

/-! ### Tile assignment -/

theorem mul_lt_of_lt_divRoundUp {n t j : Nat} (ht : 0 < t)
    (hj : j < divRoundUp n t) : j * t < n := by
  unfold divRoundUp at hj
  have h := (Nat.le_div_iff_mul_le ht).mp
    (by omega : j + 1 ≤ (n + t - 1) / t)
  have h2 : (j + 1) * t = j * t + t := by ring
  omega

theorem le_divRoundUp_mul (n t : Nat) (ht : 0 < t) :
    n ≤ divRoundUp n t * t := by
  unfold divRoundUp
  have h1 := Nat.div_add_mod (n + t - 1) t
  have h2 := Nat.mod_lt (n + t - 1) ht
  have h3 : (n + t - 1) / t * t = t * ((n + t - 1) / t) := by ring
  omega

/-- `divRoundUp` computes the exact rational ceiling for a positive
divisor: the source's `Math.ceil(x / y)`. -/
theorem divRoundUp_eq_ceil (n t : Nat) (ht : 0 < t) :
    (divRoundUp n t : ℤ) = Int.ceil ((n : ℚ) / (t : ℚ)) := by
  have htq : (0 : ℚ) < (t : ℚ) := by exact_mod_cast ht
  symm
  rw [Int.ceil_eq_iff]
  constructor
  · by_cases hT : divRoundUp n t = 0
    · rw [hT]
      push_cast
      have : (0 : ℚ) ≤ (n : ℚ) / (t : ℚ) :=
        div_nonneg (by positivity) (le_of_lt htq)
      linarith
    · have hTpos : 1 ≤ divRoundUp n t := by omega
      have hNat : (divRoundUp n t - 1) * t < n :=
        mul_lt_of_lt_divRoundUp ht (by omega)
      rw [lt_div_iff₀ htq]
      have hcast : ((divRoundUp n t - 1 : ℕ) : ℚ) * (t : ℚ) < (n : ℚ) := by
        exact_mod_cast hNat
      rw [Nat.cast_sub hTpos] at hcast
      push_cast
      push_cast at hcast
      linarith
  · rw [div_le_iff₀ htq]
    have h := le_divRoundUp_mul n t ht
    push_cast
    exact_mod_cast h

/-- C7: for every element count `n` and positive `tileSize`, the
TileAssigner produces exactly `T = ceil(n / tileSize)` tiles; the last
tile ends at `n`, so its logical length is `n - (T-1) * tileSize`; an
out-of-range read returns the monoid identity instead of reading out of
bounds; and when `n = 0` there are `T = 0` tiles, every dispatch (any
schedule) is a no-op leaving the launch state untouched, and the reduce
result is the identity. -/
theorem C7_tile_assignment {α : Type} (cfg : Config α)
    (hts : 0 < cfg.tileSize) (hbase : cfg.base = cfg.identity) :
    ((numTiles cfg : ℤ) =
      Int.ceil ((inputLen cfg : ℚ) / (cfg.tileSize : ℚ))) ∧
    (0 < inputLen cfg →
      tileEnd cfg (numTiles cfg - 1) = inputLen cfg ∧
      tileEnd cfg (numTiles cfg - 1) - (numTiles cfg - 1) * cfg.tileSize =
        inputLen cfg - (numTiles cfg - 1) * cfg.tileSize) ∧
    (∀ g, inputLen cfg ≤ g → readInput cfg g = cfg.identity) ∧
    (inputLen cfg = 0 →
      numTiles cfg = 0 ∧
      (∀ sched, run cfg sched = initState cfg) ∧
      engineReduce cfg = cfg.identity) := by
  refine ⟨divRoundUp_eq_ceil (inputLen cfg) cfg.tileSize hts, ?_, ?_, ?_⟩
  · intro hn
    have hT : 0 < numTiles cfg := by
      by_contra h
      have h0 : numTiles cfg = 0 := by omega
      rw [(numTiles_eq_zero_iff cfg hts).mp h0] at hn
      omega
    have hEnd : tileEnd cfg (numTiles cfg - 1) = inputLen cfg := by
      unfold tileEnd
      rw [show numTiles cfg - 1 + 1 = numTiles cfg from by omega]
      exact min_eq_right (inputLen_le_numTiles_mul cfg hts)
    exact ⟨hEnd, by rw [hEnd]⟩
  · intro g hg
    unfold readInput
    rw [List.getD_eq_getD_get? cfg.input cfg.identity g,
      List.get?_eq_getElem?,
      List.getElem?_eq_none (show cfg.input.length ≤ g from hg)]
    rfl
  · intro hn
    have hT : numTiles cfg = 0 := (numTiles_eq_zero_iff cfg hts).mpr hn
    have hnoop : ∀ (sched : List Nat) (s : EngineState α),
        runFrom cfg s sched = s := by
      intro sched
      induction sched with
      | nil => intro s; rfl
      | cons x rest ih =>
        intro s
        show runFrom cfg (step cfg s x) rest = s
        have hstep : step cfg s x = s := by
          unfold step
          rw [if_neg (by omega)]
        rw [hstep]
        exact ih s
    refine ⟨hT, fun sched => hnoop sched (initState cfg), ?_⟩
    unfold engineReduce
    rw [hT]
    simpa using hbase

/-- Witness for C7 at the concrete u32 add dispatch
(`n = 8`, `tileSize = 2`, `T = 4`). -/
theorem C7_tile_assignment_witness :
    (numTiles (u32AddScanConfig ScanMode.exclusive) : ℤ) =
      Int.ceil ((inputLen (u32AddScanConfig ScanMode.exclusive) : ℚ) /
        ((u32AddScanConfig ScanMode.exclusive).tileSize : ℚ)) ∧
    readInput (u32AddScanConfig ScanMode.exclusive) 9 = 0 :=
  ⟨(C7_tile_assignment (u32AddScanConfig ScanMode.exclusive)
      (by decide) rfl).1,
    (C7_tile_assignment (u32AddScanConfig ScanMode.exclusive)
      (by decide) rfl).2.2.1 9 (by decide)⟩
